import Mathlib

/-!
Verification development for the umami-oidc repository.

This file gives a shallow embedding of the OIDC module
(`src/oidc-module/src/components/hooks/useOidcConfig.ts`, which bundles
`src/lib/oidc.ts`), the callback route
(`src/oidc-module/src/app/api/auth/oidc/callback/route.ts`) and the team
claim-rule engine (`src/oidc-team-module/src/lib/oidc-teams.ts`), and proves
properties of the embedded functions.

Modelling conventions:
- JavaScript strings are Lean `String`s; character-level operations
  (`split`, `trim`) are re-implemented over `List Char` so that they are
  faithful to the single-character JS semantics and evaluate by reduction.
- JavaScript numbers are modelled exactly (as `Nat`/`Int`); every number the
  embedded code manipulates is integral (timestamps, byte values, HTTP
  status codes).  `parseInt` returning `NaN` is modelled as `Option.none`.
- Byte buffers are `List Nat` with every entry below 256.
- The HMAC-SHA256 primitive from `node:crypto` is an opaque parameter
  `hmac : String → String → List Nat` (key → message → digest bytes): the
  source calls the same primitive on both the generation and the
  verification side, and no claim depends on properties of the digest
  beyond determinism.
- `Date.now()` and `randomBytes` are explicit parameters (`now`,
  `nonceBytes`, uuid / timestamp strings) since the source reads them from
  the ambient environment.
- JSON values (claims objects) are the inductive `JsValue`; JSON numbers
  are modelled as integers (the fraction/exponent forms never arise in the
  embedded flows, and floating point is outside the model).
-/

/-! ## JavaScript-style character and string helpers -/

/-- Whitespace recognised by the embedded `trim` / `parseInt` skipping
(the common ASCII whitespace characters). -/
def isJsWhitespace (c : Char) : Bool :=
  c = ' ' || c = '\t' || c = '\n' || c = '\r' || c = '\x0b' || c = '\x0c'

/-- Character-list version of JavaScript `String.prototype.split` with a
single-character separator: `"a.b..c" → ["a","b","","c"]`, `"" → [""]`. -/
def jsSplitChars (sep : Char) : List Char → List (List Char)
  | [] => [[]]
  | c :: cs =>
    if c = sep then [] :: jsSplitChars sep cs
    else
      match jsSplitChars sep cs with
      | g :: gs => (c :: g) :: gs
      | [] => [[c]]

/-- JavaScript `s.split(sep)` for a single-character separator. -/
def jsSplit (sep : Char) (s : String) : List String :=
  (jsSplitChars sep s.data).map (fun g => ⟨g⟩)

/-- JavaScript `String.prototype.trim` (over the modelled whitespace set). -/
def jsTrim (s : String) : String :=
  ⟨((s.data.dropWhile isJsWhitespace).reverse.dropWhile isJsWhitespace).reverse⟩

/-- Digit character for bases up to 36: `0`-`9` then `a`-`z`
(the alphabet used by JavaScript `Number.prototype.toString(36)`). -/
def digitChar (d : Nat) : Char :=
  Char.ofNat (if d < 10 then 48 + d else 87 + d)

/-- Fuel-driven most-significant-first digit expansion of `n` in base `b`.
With `fuel > n` (and `2 ≤ b`) the fuel never runs out. -/
def baseDigits (b : Nat) : Nat → Nat → List Char
  | 0, _ => []
  | fuel + 1, n =>
    if n < b then [digitChar n]
    else baseDigits b fuel (n / b) ++ [digitChar (n % b)]

/-- JavaScript `n.toString(36)` for a nonnegative integral number. -/
def natToBase36 (n : Nat) : String :=
  ⟨baseDigits 36 (n + 1) n⟩

/-- Decimal digit expansion of a nonnegative integral number. -/
def natToDec (n : Nat) : List Char :=
  baseDigits 10 (n + 1) n

/-- Decimal rendering of an integral JavaScript number, as produced by
`String(n)` and `JSON.stringify(n)`. -/
def intToDec (i : Int) : List Char :=
  if i < 0 then '-' :: natToDec i.natAbs else natToDec i.toNat

/-- Value of a base-36 digit character (`parseInt` accepts both cases). -/
def b36DigitVal (c : Char) : Option Nat :=
  if 48 ≤ c.toNat ∧ c.toNat ≤ 57 then some (c.toNat - 48)
  else if 97 ≤ c.toNat ∧ c.toNat ≤ 122 then some (c.toNat - 87)
  else if 65 ≤ c.toNat ∧ c.toNat ≤ 90 then some (c.toNat - 55)
  else none

/-- Value of a decimal digit character. -/
def decDigitVal (c : Char) : Option Nat :=
  if 48 ≤ c.toNat ∧ c.toNat ≤ 57 then some (c.toNat - 48) else none

/-- Accumulate the maximal prefix of base-36 digits (the loop inside
JavaScript `parseInt(s, 36)`); stops at the first non-digit. -/
def b36Loop : List Char → Nat → Nat
  | [], acc => acc
  | c :: cs, acc =>
    match b36DigitVal c with
    | some d => b36Loop cs (acc * 36 + d)
    | none => acc

/-- Maximal base-36 digit run at the head of the character list; `none`
when the first character is not a digit (`parseInt` yields `NaN`). -/
def b36Run (cs : List Char) : Option Nat :=
  match cs with
  | c :: _ => if (b36DigitVal c).isSome then some (b36Loop cs 0) else none
  | [] => none

/-- JavaScript `parseInt(s, 36)`: leading whitespace and an optional sign
are skipped, the maximal digit prefix is converted, `NaN` is `none`. -/
def parseIntBase36 (s : String) : Option Int :=
  match s.data.dropWhile isJsWhitespace with
  | [] => none
  | c :: rest =>
    if c = '-' then (b36Run rest).map (fun v => -(v : Int))
    else if c = '+' then (b36Run rest).map (fun v => (v : Int))
    else (b36Run (c :: rest)).map (fun v => (v : Int))

/-- Lowercase hex expansion of one byte, as in `Buffer.toString('hex')`. -/
def byteToHexChars (b : Nat) : List Char :=
  [digitChar (b / 16 % 16), digitChar (b % 16)]

/-- Character list of the lowercase hex encoding of a byte list. -/
def bytesToHexChars : List Nat → List Char
  | [] => []
  | b :: bs => byteToHexChars b ++ bytesToHexChars bs

/-- JavaScript `buffer.toString('hex')`. -/
def bytesToHex (bs : List Nat) : String :=
  ⟨bytesToHexChars bs⟩

/-! ## base64url (Node `Buffer` semantics: encoding unpadded, decoding
lenient — characters outside the alphabet are ignored, a lone trailing
unit is dropped) -/

/-- Character of one 6-bit value in the base64url alphabet. -/
def b64Char (v : Nat) : Char :=
  if v < 26 then Char.ofNat (65 + v)
  else if v < 52 then Char.ofNat (97 + (v - 26))
  else if v < 62 then Char.ofNat (48 + (v - 52))
  else if v = 62 then '-'
  else '_'

/-- Value of a base64 character; Node accepts both the url-safe and the
standard alphabet when decoding. -/
def b64CharVal (c : Char) : Option Nat :=
  if 65 ≤ c.toNat ∧ c.toNat ≤ 90 then some (c.toNat - 65)
  else if 97 ≤ c.toNat ∧ c.toNat ≤ 122 then some (c.toNat - 97 + 26)
  else if 48 ≤ c.toNat ∧ c.toNat ≤ 57 then some (c.toNat - 48 + 52)
  else if c = '-' ∨ c = '+' then some 62
  else if c = '_' ∨ c = '/' then some 63
  else none

/-- Unpadded base64url encoding of a byte list
(`Buffer.toString('base64url')`). -/
def base64urlEncode : List Nat → List Char
  | b1 :: b2 :: b3 :: bs =>
    b64Char (b1 / 4 % 64) :: b64Char ((b1 % 4) * 16 + b2 / 16 % 16) ::
    b64Char ((b2 % 16) * 4 + b3 / 64 % 4) :: b64Char (b3 % 64) ::
    base64urlEncode bs
  | [b1, b2] =>
    [b64Char (b1 / 4 % 64), b64Char ((b1 % 4) * 16 + b2 / 16 % 16),
     b64Char ((b2 % 16) * 4)]
  | [b1] =>
    [b64Char (b1 / 4 % 64), b64Char ((b1 % 4) * 16)]
  | [] => []

/-- Regroup a list of 6-bit values into bytes; a lone trailing value
carries no complete byte and is dropped (Node's lenient decoder). -/
def b64Regroup : List Nat → List Nat
  | v1 :: v2 :: v3 :: v4 :: vs =>
    (v1 * 4 + v2 / 16) :: ((v2 % 16) * 16 + v3 / 4) :: ((v3 % 4) * 64 + v4) ::
    b64Regroup vs
  | [v1, v2, v3] => [v1 * 4 + v2 / 16, (v2 % 16) * 16 + v3 / 4]
  | [v1, v2] => [v1 * 4 + v2 / 16]
  | _ => []

/-- Lenient base64url decoding (`Buffer.from(s, 'base64url')`): characters
outside the alphabet are ignored, the rest are regrouped into bytes. -/
def base64urlDecode (cs : List Char) : List Nat :=
  b64Regroup (cs.filterMap b64CharVal)

/-! ## UTF-8 -/

/-- UTF-8 encoding of one scalar value. -/
def utf8EncodeChar (c : Char) : List Nat :=
  if c.toNat < 128 then [c.toNat]
  else if c.toNat < 2048 then [192 + c.toNat / 64, 128 + c.toNat % 64]
  else if c.toNat < 65536 then
    [224 + c.toNat / 4096, 128 + c.toNat / 64 % 64, 128 + c.toNat % 64]
  else
    [240 + c.toNat / 262144, 128 + c.toNat / 4096 % 64, 128 + c.toNat / 64 % 64,
     128 + c.toNat % 64]

/-- UTF-8 encoding of a character list. -/
def utf8Encode : List Char → List Nat
  | [] => []
  | c :: cs => utf8EncodeChar c ++ utf8Encode cs

/-- Continuation-byte test for UTF-8 decoding. -/
def isUtf8Cont (b : Nat) : Bool :=
  128 ≤ b && b < 192

/-- Unicode replacement character, emitted for invalid byte sequences. -/
def replacementChar : Char :=
  Char.ofNat 65533

/-- Fuel-driven lenient UTF-8 decoding loop.  Valid sequences decode to
their scalar value; an invalid byte (or an overlong / surrogate / out of
range sequence) yields the replacement character and consumes one byte,
modelling Node's `buffer.toString('utf-8')` replacement behaviour.  One
unit of fuel is spent per produced character, so `fuel = length` always
suffices. -/
def utf8DecodeLoop : Nat → List Nat → List Char
  | 0, _ => []
  | _ + 1, [] => []
  | fuel + 1, b :: bs =>
    if b < 128 then Char.ofNat b :: utf8DecodeLoop fuel bs
    else if 192 ≤ b ∧ b < 224 then
      match bs with
      | b2 :: bs2 =>
        if isUtf8Cont b2 then
          if (b - 192) * 64 + (b2 - 128) < 128 then
            replacementChar :: utf8DecodeLoop fuel bs2
          else Char.ofNat ((b - 192) * 64 + (b2 - 128)) :: utf8DecodeLoop fuel bs2
        else replacementChar :: utf8DecodeLoop fuel bs
      | [] => [replacementChar]
    else if 224 ≤ b ∧ b < 240 then
      match bs with
      | b2 :: b3 :: bs3 =>
        if isUtf8Cont b2 && isUtf8Cont b3 then
          if (b - 224) * 4096 + (b2 - 128) * 64 + (b3 - 128) < 2048
              ∨ (55296 ≤ (b - 224) * 4096 + (b2 - 128) * 64 + (b3 - 128)
                 ∧ (b - 224) * 4096 + (b2 - 128) * 64 + (b3 - 128) < 57344) then
            replacementChar :: utf8DecodeLoop fuel bs3
          else Char.ofNat ((b - 224) * 4096 + (b2 - 128) * 64 + (b3 - 128))
            :: utf8DecodeLoop fuel bs3
        else replacementChar :: utf8DecodeLoop fuel bs
      | _ => [replacementChar]
    else if 240 ≤ b ∧ b < 248 then
      match bs with
      | b2 :: b3 :: b4 :: bs4 =>
        if isUtf8Cont b2 && isUtf8Cont b3 && isUtf8Cont b4 then
          if (b - 240) * 262144 + (b2 - 128) * 4096 + (b3 - 128) * 64 + (b4 - 128) < 65536
              ∨ 1114112 ≤ (b - 240) * 262144 + (b2 - 128) * 4096 + (b3 - 128) * 64
                  + (b4 - 128) then
            replacementChar :: utf8DecodeLoop fuel bs4
          else Char.ofNat ((b - 240) * 262144 + (b2 - 128) * 4096 + (b3 - 128) * 64 + (b4 - 128))
            :: utf8DecodeLoop fuel bs4
        else replacementChar :: utf8DecodeLoop fuel bs
      | _ => [replacementChar]
    else replacementChar :: utf8DecodeLoop fuel bs

/-- Lenient UTF-8 decoding of a byte list. -/
def utf8DecodeLenient (bs : List Nat) : List Char :=
  utf8DecodeLoop bs.length bs

/-! ## JSON values (`Record<string, unknown>` payloads) -/

/-- Model of a JavaScript / JSON value.  Numbers are modelled as integers
(see the header note); `undefined` is represented by `Option.none` at
lookup sites, never as a `JsValue`. -/
inductive JsValue where
  | jNull : JsValue
  | jBool (b : Bool) : JsValue
  | jNum (n : Int) : JsValue
  | jStr (s : String) : JsValue
  | jArr (xs : List JsValue) : JsValue
  | jObj (fields : List (String × JsValue)) : JsValue

/-- JSON string escaping of one character, as produced by
`JSON.stringify`: the two mandatory escapes, the five short control
escapes, `\u00xx` for the remaining control characters, everything else
verbatim. -/
def escapeJsonChar (c : Char) : List Char :=
  if c = '"' then ['\\', '"']
  else if c = '\\' then ['\\', '\\']
  else if c = '\x08' then ['\\', 'b']
  else if c = '\t' then ['\\', 't']
  else if c = '\n' then ['\\', 'n']
  else if c = '\x0c' then ['\\', 'f']
  else if c = '\r' then ['\\', 'r']
  else if c.toNat < 32 then
    ['\\', 'u', '0', '0', digitChar (c.toNat / 16), digitChar (c.toNat % 16)]
  else [c]

/-- JSON string escaping of a character list. -/
def escapeJsonChars : List Char → List Char
  | [] => []
  | c :: cs => escapeJsonChar c ++ escapeJsonChars cs

/-- Quoted JSON string literal for `s`. -/
def quoteJson (s : String) : List Char :=
  '"' :: escapeJsonChars s.data ++ ['"']

mutual

/-- Serialization of a `JsValue`, matching `JSON.stringify` (no added
whitespace). -/
def jsonSerialize : JsValue → List Char
  | .jNull => ['n', 'u', 'l', 'l']
  | .jBool b => if b then ['t', 'r', 'u', 'e'] else ['f', 'a', 'l', 's', 'e']
  | .jNum n => intToDec n
  | .jStr s => quoteJson s
  | .jArr xs => '[' :: serElems xs ++ [']']
  | .jObj fs => '\x7b' :: serFields fs ++ ['\x7d']

/-- Comma-joined serialization of array elements. -/
def serElems : List JsValue → List Char
  | [] => []
  | [x] => jsonSerialize x
  | x :: y :: xs => jsonSerialize x ++ ',' :: serElems (y :: xs)

/-- Comma-joined serialization of object fields. -/
def serFields : List (String × JsValue) → List Char
  | [] => []
  | [(k, v)] => quoteJson k ++ ':' :: jsonSerialize v
  | (k, v) :: g :: fs => quoteJson k ++ ':' :: jsonSerialize v ++ ',' :: serFields (g :: fs)

end

mutual

/-- Fuel bound sufficient for `parseJVal` to reparse `jsonSerialize`
output (established by `jFuel_le` and `parseJVal_serialize`). -/
def jFuel : JsValue → Nat
  | .jArr xs => 1 + elemsFuel xs
  | .jObj fs => 1 + fieldsFuel fs
  | _ => 1

/-- Fuel bound for the array-element loop. -/
def elemsFuel : List JsValue → Nat
  | [] => 1
  | x :: xs => 1 + jFuel x + elemsFuel xs

/-- Fuel bound for the object-field loop. -/
def fieldsFuel : List (String × JsValue) → Nat
  | [] => 1
  | (_, v) :: fs => 1 + jFuel v + fieldsFuel fs

end

/-- JSON insignificant whitespace (exactly space, tab, newline, return). -/
def isJsonWs (c : Char) : Bool :=
  c = ' ' || c = '\t' || c = '\n' || c = '\r'

/-- Skip JSON whitespace. -/
def skipJsonWs (cs : List Char) : List Char :=
  cs.dropWhile isJsonWs

/-- Value of a hexadecimal digit character (both cases). -/
def hexDigitValAny (c : Char) : Option Nat :=
  if 48 ≤ c.toNat ∧ c.toNat ≤ 57 then some (c.toNat - 48)
  else if 97 ≤ c.toNat ∧ c.toNat ≤ 102 then some (c.toNat - 87)
  else if 65 ≤ c.toNat ∧ c.toNat ≤ 70 then some (c.toNat - 55)
  else none

/-- Parse the body of a JSON string literal (the opening quote already
consumed), returning the content characters and the rest of the input.
Escape sequences decode to their character; a `\uXXXX` escape denoting a
surrogate code unit is outside the model (Lean characters are scalar
values) and fails. -/
def parseJStr : List Char → Option (List Char × List Char)
  | [] => none
  | c :: rest =>
    if c = '"' then some ([], rest)
    else if c = '\\' then
      match rest with
      | [] => none
      | e :: rest2 =>
        if e = '"' then (parseJStr rest2).map (fun p => ('"' :: p.1, p.2))
        else if e = '\\' then (parseJStr rest2).map (fun p => ('\\' :: p.1, p.2))
        else if e = '/' then (parseJStr rest2).map (fun p => ('/' :: p.1, p.2))
        else if e = 'b' then (parseJStr rest2).map (fun p => ('\x08' :: p.1, p.2))
        else if e = 'f' then (parseJStr rest2).map (fun p => ('\x0c' :: p.1, p.2))
        else if e = 'n' then (parseJStr rest2).map (fun p => ('\n' :: p.1, p.2))
        else if e = 'r' then (parseJStr rest2).map (fun p => ('\r' :: p.1, p.2))
        else if e = 't' then (parseJStr rest2).map (fun p => ('\t' :: p.1, p.2))
        else if e = 'u' then
          match rest2 with
          | h1 :: h2 :: h3 :: h4 :: rest4 =>
            match hexDigitValAny h1, hexDigitValAny h2, hexDigitValAny h3, hexDigitValAny h4 with
            | some d1, some d2, some d3, some d4 =>
              if 55296 ≤ ((d1 * 16 + d2) * 16 + d3) * 16 + d4
                  ∧ ((d1 * 16 + d2) * 16 + d3) * 16 + d4 < 57344 then none
              else (parseJStr rest4).map
                (fun p => (Char.ofNat (((d1 * 16 + d2) * 16 + d3) * 16 + d4) :: p.1, p.2))
            | _, _, _, _ => none
          | _ => none
        else none
    else if c.toNat < 32 then none
    else (parseJStr rest).map (fun p => (c :: p.1, p.2))

/-- Maximal run of decimal digits with its value (most significant
first), starting from accumulator `acc`. -/
def decLoop : List Char → Nat → Nat × List Char
  | [], acc => (acc, [])
  | c :: cs, acc =>
    match decDigitVal c with
    | some d => decLoop cs (acc * 10 + d)
    | none => (acc, c :: cs)

/-- Test for a character that would continue a JSON number after its
integer part (fraction or exponent, outside the integer model). -/
def numTailBad : List Char → Bool
  | [] => false
  | c :: _ => c = '.' || c = 'e' || c = 'E'

/-- Parse the integer part of a JSON number (no sign): a single `0`, or a
nonzero digit followed by digits.  Rejects a following `.`, `e` or `E`:
fraction and exponent forms are outside the integer model. -/
def parseJNumCore (cs : List Char) : Option (Nat × List Char) :=
  match cs with
  | [] => none
  | c :: rest =>
    match decDigitVal c with
    | none => none
    | some d =>
      if c = '0' then
        match rest with
        | c2 :: _ =>
          if (decDigitVal c2).isSome then none
          else if numTailBad rest then none else some (0, rest)
        | [] => some (0, [])
      else
        match decLoop rest d with
        | (v, r) => if numTailBad r then none else some (v, r)

/-- Parse a JSON number (integer model). -/
def parseJNum (cs : List Char) : Option (Int × List Char) :=
  match cs with
  | [] => none
  | c :: rest =>
    if c = '-' then (parseJNumCore rest).map (fun p => (-(p.1 : Int), p.2))
    else (parseJNumCore (c :: rest)).map (fun p => ((p.1 : Int), p.2))

mutual

/-- Fuel-driven JSON value parser (recursive-descent, mirroring the
grammar that `JSON.parse` accepts, restricted to integer numbers).
Dispatch is on the first non-whitespace character: a value starting with
`t`, `f` or `n` must be the corresponding keyword, everything that is not
an object, array, string or keyword is parsed as a number. -/
def parseJVal : Nat → List Char → Option (JsValue × List Char)
  | 0, _ => none
  | fuel + 1, cs =>
    match skipJsonWs cs with
    | [] => none
    | c :: rest =>
      if c = '\x7b' then
        match skipJsonWs rest with
        | [] => none
        | c2 :: r2 =>
          if c2 = '\x7d' then some (.jObj [], r2)
          else (parseJObjRest fuel (c2 :: r2)).map (fun p => (.jObj p.1, p.2))
      else if c = '[' then
        match skipJsonWs rest with
        | [] => none
        | c2 :: r2 =>
          if c2 = ']' then some (.jArr [], r2)
          else (parseJArrRest fuel (c2 :: r2)).map (fun p => (.jArr p.1, p.2))
      else if c = '"' then (parseJStr rest).map (fun p => (.jStr ⟨p.1⟩, p.2))
      else if c = 't' then
        match rest with
        | 'r' :: 'u' :: 'e' :: r => some (.jBool true, r)
        | _ => none
      else if c = 'f' then
        match rest with
        | 'a' :: 'l' :: 's' :: 'e' :: r => some (.jBool false, r)
        | _ => none
      else if c = 'n' then
        match rest with
        | 'u' :: 'l' :: 'l' :: r => some (.jNull, r)
        | _ => none
      else (parseJNum (c :: rest)).map (fun p => (.jNum p.1, p.2))

/-- Parse one or more comma-separated array items up to `]`. -/
def parseJArrRest : Nat → List Char → Option (List JsValue × List Char)
  | 0, _ => none
  | fuel + 1, cs =>
    (parseJVal fuel cs).bind (fun p =>
      match skipJsonWs p.2 with
      | ',' :: r2 => (parseJArrRest fuel r2).map (fun q => (p.1 :: q.1, q.2))
      | ']' :: r2 => some ([p.1], r2)
      | _ => none)

/-- Parse one or more comma-separated object members up to the closing
brace. -/
def parseJObjRest : Nat → List Char → Option (List (String × JsValue) × List Char)
  | 0, _ => none
  | fuel + 1, cs =>
    match skipJsonWs cs with
    | '"' :: r =>
      (parseJStr r).bind (fun kp =>
        match skipJsonWs kp.2 with
        | ':' :: r2 =>
          (parseJVal fuel r2).bind (fun vp =>
            match skipJsonWs vp.2 with
            | ',' :: r4 => (parseJObjRest fuel r4).map (fun q => ((⟨kp.1⟩, vp.1) :: q.1, q.2))
            | '\x7d' :: r4 => some ([(⟨kp.1⟩, vp.1)], r4)
            | _ => none)
        | _ => none)
    | _ => none

end

/-- Full JSON parse of a character list (`JSON.parse`): one value, then
only whitespace.  The fuel `2 * length + 2` is sufficient for every
serialized value (`jFuel_le`). -/
def jsonParse (cs : List Char) : Option JsValue :=
  match parseJVal (2 * cs.length + 2) cs with
  | some (v, rest) => if skipJsonWs rest = [] then some v else none
  | none => none

/-! ## CSRF state engine (`generateState` / `verifyState` in
`src/lib/oidc.ts`) -/

/-- Signature of the HMAC-SHA256 primitive from `node:crypto`:
`createHmac('sha256', key).update(msg).digest()` modelled as an opaque
deterministic function from key and message to digest bytes. -/
abbrev HmacFun := String → String → List Nat

/-- Shared signature computation:
`createHmac('sha256', appSecret).update(payload).digest('hex').slice(0, 16)`. -/
def stateSignature (hmac : HmacFun) (appSecret payload : String) : String :=
  ⟨(bytesToHexChars (hmac appSecret payload)).take 16⟩

/-- Embedding of `generateState(appSecret)`.  `now` is the value of
`Date.now()` and `nonceBytes` the 16 bytes drawn from `randomBytes(16)`. -/
def generateState (hmac : HmacFun) (now : Nat) (nonceBytes : List Nat)
    (appSecret : String) : String :=
  let nonce := bytesToHex nonceBytes
  let ts := natToBase36 now
  let payload := ts ++ "." ++ nonce
  let sig := stateSignature hmac appSecret payload
  payload ++ "." ++ sig

/-- Default `maxAgeMs` of `verifyState` (10 minutes). -/
def defaultStateMaxAgeMs : Int := 10 * 60 * 1000

/-- Embedding of `verifyState(state, appSecret, maxAgeMs)`.  `now` is the
value of `Date.now()` at verification time.  An unparsable timestamp
gives `parseInt = NaN`, and `NaN > maxAgeMs` is false in JavaScript, so
the age check passes in that case (modelled by the `none` branch). -/
def verifyState (hmac : HmacFun) (now : Int) (state appSecret : String)
    (maxAgeMs : Int) : Bool :=
  match jsSplit '.' state with
  | [ts, nonce, sig] =>
    let payload := ts ++ "." ++ nonce
    let expectedSig := stateSignature hmac appSecret payload
    if sig ≠ expectedSig then false
    else
      match parseIntBase36 ts with
      | some timestamp => if now - timestamp > maxAgeMs then false else true
      | none => true
  | _ => false

/-! ## Identity-token claim decoding (`parseIdTokenClaims`) -/

/-- Embedding of `parseIdTokenClaims(idToken)`: split on `.`, require
exactly three segments, base64url-decode the middle one, UTF-8 decode and
`JSON.parse` it.  Any failure (wrong segment count or JSON parse error)
is caught and yields the empty object; a successful parse is returned
as-is, whatever its type. -/
def parseIdTokenClaims (idToken : String) : JsValue :=
  match jsSplit '.' idToken with
  | [_, payload, _] =>
    match jsonParse (utf8DecodeLenient (base64urlDecode payload.data)) with
    | some v => v
    | none => .jObj []
  | _ => .jObj []

/-! ## Role mapping (`mapOidcRole`) -/

/-- Claims object: a JavaScript object seen as an association list (key
order is insertion order, first binding wins on lookup). -/
abbrev ClaimsMap := List (String × JsValue)

/-- Property lookup: `none` models `undefined`. -/
def jsLookup (obj : ClaimsMap) (key : String) : Option JsValue :=
  (obj.find? (fun p => p.1 == key)).map (fun p => p.2)

/-- Nullish test for the `??` operator (`undefined` or `null`). -/
def isNullish : Option JsValue → Bool
  | none => true
  | some .jNull => true
  | some _ => false

/-- JavaScript nullish coalescing `a ?? b`. -/
def jsCoalesce (a b : Option JsValue) : Option JsValue :=
  if isNullish a then b else a

/-- JavaScript falsiness of a value (`!v`): `null`, `false`, `0` and the
empty string are falsy; objects and arrays are always truthy. -/
def isJsFalsy : JsValue → Bool
  | .jNull => true
  | .jBool b => !b
  | .jNum n => n == 0
  | .jStr s => s == ""
  | .jArr _ => false
  | .jObj _ => false

/-- Strict equality `v === s` against a string: true only for the same
string. -/
def jsStrictEqString (v : JsValue) (s : String) : Bool :=
  match v with
  | .jStr t => t == s
  | _ => false

/-- Comma-split with trimming: `s.split(',').map(s => s.trim())`. -/
def commaSplitTrim (s : String) : List String :=
  (jsSplit ',' s).map jsTrim

/-- Embedding of `mapOidcRole(userInfo, idTokenClaims)`.  The

configuration reads `cfg.roleClaim` and `cfg.adminGroup`; they are passed
explicitly.  Mirrors the source: claim looked up in `userInfo` with `??`
fallback to `idTokenClaims`; falsy claim → `"user"`; array claim →
`includes(adminGroup)`; string claim → exact or trimmed comma-split
membership; anything else → `"user"`. -/
def mapRoleFromClaim (adminGroup : String) : Option JsValue → String
  | none => "user"
  | some v =>
    if isJsFalsy v then "user"
    else
      match v with
      | .jArr xs => if xs.any (fun x => jsStrictEqString x adminGroup) then "admin" else "user"
      | .jStr s =>
        if s == adminGroup then "admin"
        else if (commaSplitTrim s).contains adminGroup then "admin"
        else "user"
      | _ => "user"

/-- Embedding of `mapOidcRole(userInfo, idTokenClaims)`: the claim named
by `cfg.roleClaim` is looked up in `userInfo` with `??` fallback to the
identity-token claims, and dispatched by `mapRoleFromClaim`. -/
def mapOidcRole (roleClaim adminGroup : String)
    (userInfo idTokenClaims : ClaimsMap) : String :=
  mapRoleFromClaim adminGroup
    (jsCoalesce (jsLookup userInfo roleClaim) (jsLookup idTokenClaims roleClaim))

/-- Transcription of claim C3's description of the role mapper, used only
to exhibit where it differs from the source (`mapOidcRole`): an absent
claim yields `"user"`; an array claim yields `"admin"` iff the admin
group is a member; a string claim yields `"admin"` iff it equals the
admin group exactly or the admin group appears as a trimmed element of
its comma-split; every other claim value type yields `"user"`. -/
def mapRoleClaimC3Spec (roleClaim adminGroup : String)
    (userInfo idTokenClaims : ClaimsMap) : String :=
  match jsCoalesce (jsLookup userInfo roleClaim) (jsLookup idTokenClaims roleClaim) with
  | none => "user"
  | some v =>
    match v with
    | .jArr xs => if xs.any (fun x => jsStrictEqString x adminGroup) then "admin" else "user"
    | .jStr s =>
      if s == adminGroup then "admin"
      else if (commaSplitTrim s).contains adminGroup then "admin"
      else "user"
    | _ => "user"

/-! ## Discovery cache (`getDiscovery`) -/

/-- Discovery document fields parsed from the well-known endpoint. -/
structure OidcDiscovery where
  authorization_endpoint : String
  token_endpoint : String
  userinfo_endpoint : String
  jwks_uri : String
  issuer : String
  end_session_endpoint : Option String
deriving DecidableEq

/-- Module-level cache state: `_discoveryCache` and
`_discoveryCacheTime` (initially `none` and `0`). -/
structure DiscoveryCacheState where
  doc : Option OidcDiscovery
  time : Int
deriving DecidableEq

/-- `DISCOVERY_TTL_MS` (5 minutes). -/
def discoveryTTLms : Int := 5 * 60 * 1000

/-- Embedding of `issuerUrl.replace(/\/+$/, '')`. -/
def stripTrailingSlashes (s : String) : String :=
  ⟨(s.data.reverse.dropWhile (fun c => c = '/')).reverse⟩

/-- Well-known discovery URL for an issuer. -/
def wellKnownUrl (issuerUrl : String) : String :=
  stripTrailingSlashes issuerUrl ++ "/.well-known/openid-configuration"

/-- Outcome of the `fetch` of a URL, as far as `getDiscovery` inspects
it: either a non-ok response with its HTTP status, or an ok response
whose JSON body is the discovery document. -/
inductive FetchOutcome where
  | httpError (status : Nat) (statusText : String) : FetchOutcome
  | ok (doc : OidcDiscovery) : FetchOutcome

/-- Message of the error thrown on a non-ok discovery response, carrying
the HTTP status. -/
def discoveryFailureMessage (status : Nat) (statusText url : String) : String :=
  "OIDC discovery failed: " ++ toString status ++ " " ++ statusText ++ " from " ++ url

/-- Embedding of `getDiscovery(issuerUrl)`.  `st` is the module cache,
`now` the value of `Date.now()`, and `fetchEnv` maps each URL to the
response the network would give.  Returns the thrown error or the
document, together with the cache state afterwards. -/
def getDiscovery (st : DiscoveryCacheState) (now : Int) (issuerUrl : String)
    (fetchEnv : String → FetchOutcome) :
    Except String OidcDiscovery × DiscoveryCacheState :=
  match st.doc with
  | some cached =>
    if now - st.time < discoveryTTLms then (.ok cached, st)
    else getDiscoveryFetch st now issuerUrl fetchEnv
  | none => getDiscoveryFetch st now issuerUrl fetchEnv
where
  /-- Fetch path of `getDiscovery` (cache empty or stale). -/
  getDiscoveryFetch (st : DiscoveryCacheState) (now : Int) (issuerUrl : String)
      (fetchEnv : String → FetchOutcome) :
      Except String OidcDiscovery × DiscoveryCacheState :=
    match fetchEnv (wellKnownUrl issuerUrl) with
    | .httpError status statusText =>
      (.error (discoveryFailureMessage status statusText (wellKnownUrl issuerUrl)), st)
    | .ok doc => (.ok doc, { doc := some doc, time := now })

/-! ## Callback CSRF check (`GET` in `callback/route.ts`, step 1) -/

/-- Message thrown when the returned `state` differs from (or there is
no) saved `oidc_state` cookie. -/
def oidcStateMismatchMessage : String :=
  "OIDC state mismatch – possible CSRF attack"

/-- Message thrown when the state signature or age check fails. -/
def oidcStateVerifyFailedMessage : String :=
  "OIDC state verification failed (expired or tampered)"

/-- Embedding of the CSRF-verification step of the callback handler:
`savedState` is the `oidc_state` cookie value (`none` when the cookie is
absent; the empty string is falsy, hence also a mismatch).  A thrown
error is caught by the handler, which redirects to `/login` with the
error message as the client-visible `error` query parameter. -/
def callbackCsrfCheck (hmac : HmacFun) (now : Int) (savedState : Option String)
    (state appSecret : String) : Except String Unit :=
  let falsy := match savedState with
    | none => true
    | some s => s == ""
  if falsy || savedState != some state then .error oidcStateMismatchMessage
  else if !verifyState hmac now state appSecret defaultStateMaxAgeMs then
    .error oidcStateVerifyFailedMessage
  else .ok ()

/-! ## Team claim-rule engine (`src/oidc-team-module/src/lib/oidc-teams.ts`) -/

/-- A stored team claim rule. -/
structure TeamClaimRule where
  id : String
  claimField : String
  claimValue : String
  teamRole : String
  createdAt : String
deriving DecidableEq

/-- The persisted `teamId → rules[]` mapping (JavaScript object:
insertion-ordered association list with unique keys). -/
abbrev TeamRulesMap := List (String × List TeamClaimRule)

/-- Parsed content of the Redis key `oidc:team:rules` (`none` when the
key is absent). -/
structure RedisClientState where
  rules : Option TeamRulesMap
deriving DecidableEq

/-- The `redis` module object from `@/lib/redis` as the engine sees it:
an `enabled` flag and a client that exists only when a store is
configured.  Invoking an operation on the absent client faults (the
JavaScript `redis.client` is not an object in that case); this is
modelled by `Except.error`. -/
structure RedisModel where
  enabled : Bool
  client : Option RedisClientState
deriving DecidableEq

/-- The `redis.client.get(RULES_KEY)` call (including JSON parsing of the
stored text). -/
def redisClientGet (client : Option RedisClientState) :
    Except String (Option TeamRulesMap) :=
  match client with
  | none => .error "TypeError: redis.client is not available"
  | some c => .ok c.rules

/-- The `redis.client.set(RULES_KEY, JSON.stringify(all))` call. -/
def redisClientSet (client : Option RedisClientState) (v : TeamRulesMap) :
    Except String RedisClientState :=
  match client with
  | none => .error "TypeError: redis.client is not available"
  | some _ => .ok { rules := some v }

/-- Embedding of `getAllTeamRules()`: empty when Redis is disabled, the
parsed mapping otherwise; read errors are caught and yield the empty
mapping. -/
def getAllTeamRules (r : RedisModel) : TeamRulesMap :=
  if !r.enabled then []
  else
    match redisClientGet r.client with
    | .ok data => data.getD []
    | .error _ => []

/-- Object-property lookup in the rules mapping (`all[teamId]`). -/
def lookupRules (m : TeamRulesMap) (teamId : String) : Option (List TeamClaimRule) :=
  (m.find? (fun p => p.1 == teamId)).map (fun p => p.2)

/-- Object-property update `all[teamId] = rules`: replaces the binding in
place when the key exists, appends it otherwise (JavaScript objects keep
insertion order). -/
def upsertRules : TeamRulesMap → String → List TeamClaimRule → TeamRulesMap
  | [], teamId, rules => [(teamId, rules)]
  | (k, v) :: m, teamId, rules =>
    if k == teamId then (k, rules) :: m
    else (k, v) :: upsertRules m teamId rules

/-- Object-property deletion `delete all[teamId]`. -/
def deleteRulesKey (m : TeamRulesMap) (teamId : String) : TeamRulesMap :=
  m.filter (fun p => p.1 != teamId)

/-- Embedding of `addTeamRule(teamId, claimField, claimValue, teamRole)`.
`uuid` and `createdAt` stand for `randomUUID()` and
`new Date().toISOString()`.  Note that, unlike `getAllTeamRules` and
`processOidcTeamMappings`, this function has no `redis.enabled` guard and
no `try`/`catch`: with Redis absent the `redis.client.set` call faults
and the error propagates to the caller. -/
def addTeamRule (r : RedisModel) (uuid createdAt teamId claimField claimValue
    teamRole : String) : Except String (TeamClaimRule × RedisModel) :=
  let all := getAllTeamRules r
  let all1 := match lookupRules all teamId with
    | none => upsertRules all teamId []
    | some _ => all
  let rule : TeamClaimRule :=
    { id := uuid, claimField := jsTrim claimField, claimValue := jsTrim claimValue,
      teamRole := teamRole, createdAt := createdAt }
  let all2 := upsertRules all1 teamId ((lookupRules all1 teamId).getD [] ++ [rule])
  match redisClientSet r.client all2 with
  | .ok c2 => .ok (rule, { r with client := some c2 })
  | .error e => .error e

/-- Embedding of `removeTeamRule(teamId, ruleId)`: returns `false` (with
no write) when the team or the rule is not found, otherwise persists the
filtered mapping, deleting the team's entry once empty. -/
def removeTeamRule (r : RedisModel) (teamId ruleId : String) :
    Except String (Bool × RedisModel) :=
  let all := getAllTeamRules r
  match lookupRules all teamId with
  | none => .ok (false, r)
  | some rules =>
    let before := rules.length
    let filtered := rules.filter (fun rl => rl.id != ruleId)
    let all2 := if filtered.isEmpty then deleteRulesKey all teamId
      else upsertRules all teamId filtered
    let lenAfter := ((lookupRules all2 teamId).getD []).length
    if lenAfter == before then .ok (false, r)
    else
      match redisClientSet r.client all2 with
      | .ok c2 => .ok (true, { r with client := some c2 })
      | .error e => .error e

mutual

/-- JavaScript `String(v)` coercion of a value. -/
def jsToString : JsValue → String
  | .jNull => "null"
  | .jBool b => if b then "true" else "false"
  | .jNum n => ⟨intToDec n⟩
  | .jStr s => s
  | .jArr xs => ⟨jsArrJoinChars xs⟩
  | .jObj _ => "[object Object]"

/-- Array coercion `[...].join(',')`: elements are stringified, `null`
elements become empty. -/
def jsArrJoinChars : List JsValue → List Char
  | [] => []
  | [.jNull] => []
  | [v] => (jsToString v).data
  | .jNull :: w :: vs => ',' :: jsArrJoinChars (w :: vs)
  | v :: w :: vs => (jsToString v).data ++ ',' :: jsArrJoinChars (w :: vs)

end

/-- Embedding of `matchesClaim(claimValue, expectedValue)`: `null` and
`undefined` never match; arrays match by stringified element equality;
strings match exactly or as a trimmed comma-split element; every other
value is coerced with `String(...)` and compared. -/
def matchesClaim (claimValue : Option JsValue) (expectedValue : String) : Bool :=
  match claimValue with
  | none => false
  | some .jNull => false
  | some (.jArr xs) => xs.any (fun v => jsToString v == expectedValue)
  | some (.jStr s) =>
    if s == expectedValue then true
    else (commaSplitTrim s).contains expectedValue
  | some v => jsToString v == expectedValue

/-- A team membership row (`teamUser` record); the generated row id is
not modelled, the engine never reads it. -/
structure TeamMembership where
  userId : String
  teamId : String
  role : String
deriving DecidableEq

/-- The slice of the database the engine touches: the set of existing
team ids and the team-membership rows. -/
structure DbState where
  teams : List String
  teamUsers : List TeamMembership
deriving DecidableEq

/-- Embedding of `ensureTeamMembership(userId, teamId, role)`: no-op when
the team does not exist or the user is already a member (whatever the
existing role); otherwise inserts a membership with the given role,
`'team_member'` when the given role is falsy (empty). -/
def ensureTeamMembership (db : DbState) (userId teamId role : String) : DbState :=
  if !db.teams.contains teamId then db
  else if db.teamUsers.any (fun m => m.userId == userId && m.teamId == teamId) then db
  else
    { db with
      teamUsers := db.teamUsers ++
        [{ userId := userId, teamId := teamId,
           role := if role == "" then "team_member" else role }] }

/-- Claim lookup shared by the loop body:
`userInfo[field] ?? idTokenClaims[field]`. -/
def claimLookup (userInfo idTokenClaims : ClaimsMap) (field : String) : Option JsValue :=
  jsCoalesce (jsLookup userInfo field) (jsLookup idTokenClaims field)

/-- First rule of the list whose claim matches (the `for ... break` loop
body): the claim is looked up in `userInfo` with `??` fallback to
`idTokenClaims`. -/
def firstMatchingRule (rules : List TeamClaimRule)
    (userInfo idTokenClaims : ClaimsMap) : Option TeamClaimRule :=
  rules.find? (fun rule =>
    matchesClaim (claimLookup userInfo idTokenClaims rule.claimField) rule.claimValue)

/-- Per-team step of the mapping loop: ensure membership for the first
matching rule, if any. -/
def processTeamEntry (userId : String) (userInfo idTokenClaims : ClaimsMap)
    (db : DbState) (entry : String × List TeamClaimRule) : DbState :=
  match firstMatchingRule entry.2 userInfo idTokenClaims with
  | some rule => ensureTeamMembership db userId entry.1 rule.teamRole
  | none => db

/-- Fold of the per-team step over the rules mapping (the outer
`for (const teamId of teamIds)` loop). -/
def processRulesList (userId : String) (userInfo idTokenClaims : ClaimsMap) :
    TeamRulesMap → DbState → DbState
  | [], db => db
  | entry :: rest, db =>
    processRulesList userId userInfo idTokenClaims rest
      (processTeamEntry userId userInfo idTokenClaims db entry)

/-- Embedding of `processOidcTeamMappings(userId, userInfo,
idTokenClaims)` (and of the `applyTeamMappings` bridge, which merely
forwards to it): a silent no-op when Redis is disabled, otherwise
evaluates every team's rules and ensures membership on first match. -/
def processOidcTeamMappings (r : RedisModel) (db : DbState) (userId : String)
    (userInfo idTokenClaims : ClaimsMap) : DbState :=
  if !r.enabled then db
  else processRulesList userId userInfo idTokenClaims (getAllTeamRules r) db

/-- Side condition used by the reparse lemmas: the continuation does not
begin with a character that could extend a just-parsed number. -/
def numStop : List Char → Bool
  | [] => true
  | c :: _ => (decDigitVal c).isNone && c != '.' && c != 'e' && c != 'E'

/-! # Theorems -/

/-! ## Character and digit lemmas -/

theorem charToNat_ofNat (n : Nat) (h : n.isValidChar) : (Char.ofNat n).toNat = n := by
  simp only [Char.ofNat, h, dite_true, Char.ofNatAux, Char.toNat]
  simp [UInt32.toNat]

theorem charToNat_ofNat_small (n : Nat) (h : n < 55296) : (Char.ofNat n).toNat = n :=
  charToNat_ofNat n (Or.inl h)

theorem digitChar_toNat (d : Nat) (h : d < 36) :
    (digitChar d).toNat = if d < 10 then 48 + d else 87 + d := by
  unfold digitChar
  by_cases hd : d < 10
  · rw [if_pos hd, charToNat_ofNat_small _ (by omega)]
  · rw [if_neg hd, charToNat_ofNat_small _ (by omega)]

theorem b36DigitVal_digitChar (d : Nat) (h : d < 36) :
    b36DigitVal (digitChar d) = some d := by
  unfold b36DigitVal
  rw [digitChar_toNat d h]
  by_cases hd : d < 10
  · rw [if_pos hd, if_pos (by omega)]
    simp only [Option.some.injEq]
    omega
  · rw [if_neg hd, if_neg (by omega), if_pos (by omega)]
    simp only [Option.some.injEq]
    omega

theorem decDigitVal_digitChar (d : Nat) (h : d < 10) :
    decDigitVal (digitChar d) = some d := by
  unfold decDigitVal
  rw [digitChar_toNat d (by omega), if_pos h, if_pos (by omega)]
  simp only [Option.some.injEq]
  omega

theorem digitChar_not_dot (d : Nat) (h : d < 36) : digitChar d ≠ '.' := by
  intro he
  have := digitChar_toNat d h
  rw [he] at this
  have hv : ('.' : Char).toNat = 46 := rfl
  rw [hv] at this
  split at this <;> omega

theorem digitChar_not_ws (d : Nat) (h : d < 36) : isJsWhitespace (digitChar d) = false := by
  have ht := digitChar_toNat d h
  unfold isJsWhitespace
  have h32 : (' ' : Char).toNat = 32 := rfl
  have h9 : ('\t' : Char).toNat = 9 := rfl
  have h10 : ('\n' : Char).toNat = 10 := rfl
  have h13 : ('\r' : Char).toNat = 13 := rfl
  have h11 : ('\x0b' : Char).toNat = 11 := rfl
  have h12 : ('\x0c' : Char).toNat = 12 := rfl
  simp only [Bool.or_eq_false_iff, decide_eq_false_iff_not]
  refine ⟨⟨⟨⟨⟨?_, ?_⟩, ?_⟩, ?_⟩, ?_⟩, ?_⟩ <;>
    (intro he; rw [he] at ht; revert ht) <;>
    first
      | (rw [h32]; split <;> omega)
      | (rw [h9]; split <;> omega)
      | (rw [h10]; split <;> omega)
      | (rw [h13]; split <;> omega)
      | (rw [h11]; split <;> omega)
      | (rw [h12]; split <;> omega)

theorem digitChar_not_sign (d : Nat) (h : d < 36) :
    digitChar d ≠ '-' ∧ digitChar d ≠ '+' := by
  have ht := digitChar_toNat d h
  constructor <;> intro he <;> rw [he] at ht
  · have hv : ('-' : Char).toNat = 45 := rfl
    rw [hv] at ht
    split at ht <;> omega
  · have hv : ('+' : Char).toNat = 43 := rfl
    rw [hv] at ht
    split at ht <;> omega

/-! ## Split lemmas -/

theorem jsSplitChars_cons (sep c : Char) (cs : List Char) :
    jsSplitChars sep (c :: cs)
      = if c = sep then [] :: jsSplitChars sep cs
        else
          match jsSplitChars sep cs with
          | g :: gs => (c :: g) :: gs
          | [] => [[c]] := rfl

theorem jsSplitChars_ne_nil (sep : Char) (cs : List Char) : jsSplitChars sep cs ≠ [] := by
  induction cs with
  | nil => simp [jsSplitChars]
  | cons c cs ih =>
    rw [jsSplitChars_cons]
    by_cases hc : c = sep
    · simp [hc]
    · rw [if_neg hc]
      rcases hg : jsSplitChars sep cs with _ | ⟨g, gs⟩
      · exact absurd hg ih
      · simp

theorem jsSplitChars_no_sep (sep : Char) (a : List Char) (h : sep ∉ a) :
    jsSplitChars sep a = [a] := by
  induction a with
  | nil => rfl
  | cons c cs ih =>
    have hc : c ≠ sep := fun he => h (by simp [he])
    have hcs : sep ∉ cs := fun hm => h (by simp [hm])
    rw [jsSplitChars_cons, if_neg hc, ih hcs]

theorem jsSplitChars_append_sep (sep : Char) (a rest : List Char) (h : sep ∉ a) :
    jsSplitChars sep (a ++ sep :: rest) = a :: jsSplitChars sep rest := by
  induction a with
  | nil =>
    simp only [List.nil_append]
    rw [jsSplitChars_cons, if_pos rfl]
  | cons c cs ih =>
    have hc : c ≠ sep := fun he => h (by simp [he])
    have hcs : sep ∉ cs := fun hm => h (by simp [hm])
    simp only [List.cons_append]
    rw [jsSplitChars_cons, if_neg hc, ih hcs]

theorem stringMk_data (s : String) : (⟨s.data⟩ : String) = s := rfl

theorem jsSplit_three (a b c : String) (ha : '.' ∉ a.data) (hb : '.' ∉ b.data)
    (hc : '.' ∉ c.data) :
    jsSplit '.' (a ++ "." ++ b ++ "." ++ c) = [a, b, c] := by
  have hdata : (a ++ "." ++ b ++ "." ++ c).data
      = a.data ++ '.' :: (b.data ++ '.' :: c.data) := by
    simp [String.data_append]
  unfold jsSplit
  rw [hdata, jsSplitChars_append_sep _ _ _ ha, jsSplitChars_append_sep _ _ _ hb,
    jsSplitChars_no_sep _ _ hc]
  simp [stringMk_data]

/-! ## Base-36 digit expansion lemmas -/

theorem baseDigits_mem (b : Nat) (hb1 : 1 ≤ b) (hb : b ≤ 36) :
    ∀ fuel n c, c ∈ baseDigits b fuel n → ∃ d, d < 36 ∧ c = digitChar d := by
  intro fuel
  induction fuel with
  | zero => intro n c hmem; simp [baseDigits] at hmem
  | succ fuel ih =>
    intro n c hmem
    unfold baseDigits at hmem
    by_cases hn : n < b
    · rw [if_pos hn] at hmem
      simp at hmem
      exact ⟨n, by omega, hmem⟩
    · rw [if_neg hn] at hmem
      rcases List.mem_append.mp hmem with hm | hm
      · exact ih (n / b) c hm
      · simp at hm
        have hmod : n % b < b := Nat.mod_lt n (by omega)
        exact ⟨n % b, by omega, hm⟩

theorem baseDigits_head (b : Nat) (hb : 2 ≤ b) (hb36 : b ≤ 36) :
    ∀ fuel n, n < fuel →
      ∃ d rest, baseDigits b fuel n = digitChar d :: rest ∧ d < b ∧ (0 < n → 1 ≤ d) := by
  intro fuel
  induction fuel with
  | zero => intro n hn; omega
  | succ fuel ih =>
    intro n hn
    unfold baseDigits
    by_cases hnb : n < b
    · rw [if_pos hnb]
      exact ⟨n, [], rfl, hnb, fun h => by omega⟩
    · rw [if_neg hnb]
      have hdiv : n / b < fuel := by
        have h1 : n / b < n := Nat.div_lt_self (by omega) (by omega)
        omega
      obtain ⟨d, rest, heq, hd, hpos⟩ := ih (n / b) hdiv
      refine ⟨d, rest ++ [digitChar (n % b)], by rw [heq]; simp, hd, fun _ => ?_⟩
      have : 0 < n / b := Nat.div_pos (by omega) (by omega)
      exact hpos this

theorem b36Loop_cons (c : Char) (cs : List Char) (acc : Nat) :
    b36Loop (c :: cs) acc
      = match b36DigitVal c with
        | some d => b36Loop cs (acc * 36 + d)
        | none => acc := rfl

theorem b36Loop_cons_digit (c : Char) (d : Nat) (hc : b36DigitVal c = some d)
    (cs : List Char) (acc : Nat) :
    b36Loop (c :: cs) acc = b36Loop cs (acc * 36 + d) := by
  rw [b36Loop_cons, hc]

theorem b36Loop_baseDigits :
    ∀ fuel n, n < fuel → ∀ rest acc,
      b36Loop (baseDigits 36 fuel n ++ rest) acc
        = b36Loop rest (acc * 36 ^ (baseDigits 36 fuel n).length + n) := by
  intro fuel
  induction fuel with
  | zero => intro n hn; omega
  | succ fuel ih =>
    intro n hn rest acc
    by_cases hnb : n < 36
    · rw [baseDigits, if_pos hnb]
      simp only [List.singleton_append, List.length_singleton]
      rw [b36Loop_cons_digit _ _ (b36DigitVal_digitChar n hnb)]
      norm_num
    · rw [baseDigits, if_neg hnb]
      have hdiv : n / 36 < fuel := by
        have h1 : n / 36 < n := Nat.div_lt_self (by omega) (by omega)
        omega
      rw [List.append_assoc, List.singleton_append, ih (n / 36) hdiv]
      rw [b36Loop_cons_digit _ _ (b36DigitVal_digitChar (n % 36) (by omega))]
      have hlen : (baseDigits 36 fuel (n / 36) ++ [digitChar (n % 36)]).length
          = (baseDigits 36 fuel (n / 36)).length + 1 := by simp
      rw [hlen]
      congr 1
      have hmod : 36 * (n / 36) + n % 36 = n := Nat.div_add_mod n 36
      set k := (baseDigits 36 fuel (n / 36)).length
      rw [pow_succ]
      ring_nf
      omega

theorem parseIntBase36_natToBase36 (n : Nat) :
    parseIntBase36 (natToBase36 n) = some (n : Int) := by
  obtain ⟨d, rest, heq, hd, _⟩ := baseDigits_head 36 (by omega) (by omega) (n + 1) n (by omega)
  unfold parseIntBase36 natToBase36
  have hdata : (⟨baseDigits 36 (n + 1) n⟩ : String).data = baseDigits 36 (n + 1) n := rfl
  rw [hdata, heq]
  rw [List.dropWhile_cons, digitChar_not_ws d (by omega)]
  simp only [Bool.false_eq_true, if_false]
  obtain ⟨hminus, hplus⟩ := digitChar_not_sign d (by omega)
  have hloop : b36Loop (digitChar d :: rest) 0 = n := by
    have hfull := b36Loop_baseDigits (n + 1) n (by omega) [] 0
    rw [List.append_nil, heq] at hfull
    simpa [b36Loop] using hfull
  have hrun : b36Run (digitChar d :: rest) = some n := by
    show (if (b36DigitVal (digitChar d)).isSome = true
        then some (b36Loop (digitChar d :: rest) 0) else none) = some n
    rw [b36DigitVal_digitChar d (by omega)]
    simp [hloop]
  simp [if_neg hminus, if_neg hplus, hrun]

/-! ## State-token helper lemmas -/

theorem bytesToHexChars_mem (bs : List Nat) (c : Char) (h : c ∈ bytesToHexChars bs) :
    ∃ d, d < 36 ∧ c = digitChar d := by
  induction bs with
  | nil => simp [bytesToHexChars] at h
  | cons b bs ih =>
    unfold bytesToHexChars byteToHexChars at h
    rcases List.mem_append.mp h with hm | hm
    · simp at hm
      rcases hm with he | he
      · exact ⟨b / 16 % 16, by omega, he⟩
      · exact ⟨b % 16, by omega, he⟩
    · exact ih hm

theorem natToBase36_no_dot (n : Nat) : '.' ∉ (natToBase36 n).data := by
  intro hmem
  have hdata : (natToBase36 n).data = baseDigits 36 (n + 1) n := rfl
  rw [hdata] at hmem
  obtain ⟨d, hd, he⟩ := baseDigits_mem 36 (by omega) (by omega) (n + 1) n '.' hmem
  exact digitChar_not_dot d hd he.symm

theorem bytesToHex_no_dot (bs : List Nat) : '.' ∉ (bytesToHex bs).data := by
  intro hmem
  have hdata : (bytesToHex bs).data = bytesToHexChars bs := rfl
  rw [hdata] at hmem
  obtain ⟨d, hd, he⟩ := bytesToHexChars_mem bs '.' hmem
  exact digitChar_not_dot d hd he.symm

theorem stateSignature_no_dot (hmac : HmacFun) (sec payload : String) :
    '.' ∉ (stateSignature hmac sec payload).data := by
  intro hmem
  have hdata : (stateSignature hmac sec payload).data
      = (bytesToHexChars (hmac sec payload)).take 16 := rfl
  rw [hdata] at hmem
  obtain ⟨d, hd, he⟩ := bytesToHexChars_mem (hmac sec payload) '.' (List.mem_of_mem_take hmem)
  exact digitChar_not_dot d hd he.symm

theorem generateState_eq (hmac : HmacFun) (now : Nat) (nonceBytes : List Nat)
    (sec : String) :
    generateState hmac now nonceBytes sec
      = natToBase36 now ++ "." ++ bytesToHex nonceBytes ++ "."
        ++ stateSignature hmac sec (natToBase36 now ++ "." ++ bytesToHex nonceBytes) := rfl

theorem verifyState_eq_of_split (hmac : HmacFun) (now : Int) (st sec : String)
    (maxAge : Int) (ts nonce sig : String) (h : jsSplit '.' st = [ts, nonce, sig]) :
    verifyState hmac now st sec maxAge
      = (if sig ≠ stateSignature hmac sec (ts ++ "." ++ nonce) then false
         else
           match parseIntBase36 ts with
           | some t => if now - t > maxAge then false else true
           | none => true) := by
  unfold verifyState
  rw [h]

/-- C1: for every secret (and every HMAC primitive, generation time and
nonce randomness), verifying a freshly generated state with the same
secret and the default maximum age succeeds when the verification time is
at most the default maximum age after generation — in particular at the
generation instant itself (the witness). -/
theorem claimC1_verify_fresh_state (hmac : HmacFun) (genNow : Nat)
    (nonceBytes : List Nat) (secret : String) (verifyNow : Int)
    (hage : verifyNow - (genNow : Int) ≤ defaultStateMaxAgeMs) :
    verifyState hmac verifyNow (generateState hmac genNow nonceBytes secret)
      secret defaultStateMaxAgeMs = true := by
  have hsplit := jsSplit_three (natToBase36 genNow) (bytesToHex nonceBytes)
    (stateSignature hmac secret (natToBase36 genNow ++ "." ++ bytesToHex nonceBytes))
    (natToBase36_no_dot genNow) (bytesToHex_no_dot nonceBytes)
    (stateSignature_no_dot hmac secret _)
  rw [generateState_eq]
  rw [verifyState_eq_of_split _ _ _ _ _ _ _ _ hsplit]
  rw [if_neg (by intro hne; exact hne rfl)]
  rw [parseIntBase36_natToBase36 genNow]
  show (if verifyNow - (genNow : Int) > defaultStateMaxAgeMs then false else true) = true
  rw [if_neg (by unfold defaultStateMaxAgeMs at hage ⊢; omega)]

/-- Witness for C1 at a concrete secret, time, nonce and digest
function. -/
theorem claimC1_witness :
    verifyState (fun _ _ => List.range 32) 12345
      (generateState (fun _ _ => List.range 32) 12345 (List.range 16) "app-secret")
      "app-secret" defaultStateMaxAgeMs = true :=
  claimC1_verify_fresh_state (fun _ _ => List.range 32) 12345 (List.range 16)
    "app-secret" 12345 (by norm_num [defaultStateMaxAgeMs])

/-- C2: the verifier is a total boolean function (it never throws by
construction of the embedding), and it returns `false` whenever the input
does not split on `.` into exactly three parts, or the third part differs
from the first 16 hex characters of the HMAC of the first two parts
(joined by a dot) under the secret, or the decoded timestamp makes the
state older than `maxAgeMs`; consequently, for a negative `maxAgeMs`,
every state whose decoded timestamp is not in the future is rejected. -/
theorem claimC2_verify_reject_conditions (hmac : HmacFun) :
    (∀ (now : Int) (st sec : String) (maxAge : Int),
      (jsSplit '.' st).length ≠ 3 → verifyState hmac now st sec maxAge = false)
    ∧ (∀ (now : Int) (st sec : String) (maxAge : Int) (ts nonce sig : String),
      jsSplit '.' st = [ts, nonce, sig] →
      sig ≠ stateSignature hmac sec (ts ++ "." ++ nonce) →
      verifyState hmac now st sec maxAge = false)
    ∧ (∀ (now : Int) (st sec : String) (maxAge : Int) (ts nonce sig : String) (t : Int),
      jsSplit '.' st = [ts, nonce, sig] → parseIntBase36 ts = some t →
      now - t > maxAge → verifyState hmac now st sec maxAge = false)
    ∧ (∀ (now : Int) (st sec : String) (maxAge : Int) (ts nonce sig : String) (t : Int),
      jsSplit '.' st = [ts, nonce, sig] → parseIntBase36 ts = some t →
      maxAge < 0 → t ≤ now → verifyState hmac now st sec maxAge = false) := by
  have expired : ∀ (now : Int) (st sec : String) (maxAge : Int) (ts nonce sig : String)
      (t : Int), jsSplit '.' st = [ts, nonce, sig] → parseIntBase36 ts = some t →
      now - t > maxAge → verifyState hmac now st sec maxAge = false := by
    intro now st sec maxAge ts nonce sig t hsplit hparse hgt
    rw [verifyState_eq_of_split _ _ _ _ _ _ _ _ hsplit]
    by_cases hsig : sig = stateSignature hmac sec (ts ++ "." ++ nonce)
    · rw [if_neg (by intro hne; exact hne hsig), hparse]
      show (if now - t > maxAge then false else true) = false
      rw [if_pos hgt]
    · rw [if_pos hsig]
  refine ⟨?_, ?_, expired, ?_⟩
  · intro now st sec maxAge hlen
    unfold verifyState
    rcases h : jsSplit '.' st with _ | ⟨a, _ | ⟨b, _ | ⟨c, _ | ⟨d, l⟩⟩⟩⟩
    · rfl
    · rfl
    · rfl
    · rw [h] at hlen; simp at hlen
    · rfl
  · intro now st sec maxAge ts nonce sig hsplit hne
    rw [verifyState_eq_of_split _ _ _ _ _ _ _ _ hsplit, if_pos hne]
  · intro now st sec maxAge ts nonce sig t hsplit hparse hneg hle
    exact expired now st sec maxAge ts nonce sig t hsplit hparse (by omega)

/-- Concrete instances of the four rejection conditions of C2. -/
theorem claimC2_witness :
    verifyState (fun _ _ => List.range 32) 0 "only.two" "sec" 600000 = false
    ∧ verifyState (fun _ _ => List.range 32) 0 "a.b.c" "sec" 600000 = false
    ∧ verifyState (fun _ _ => List.range 32) 700000 "a.b.c" "sec" 600000 = false
    ∧ verifyState (fun _ _ => List.range 32) 11 "a.b.c" "sec" (-1) = false := by
  obtain ⟨h1, h2, h3, h4⟩ := claimC2_verify_reject_conditions (fun _ _ => List.range 32)
  exact ⟨h1 0 "only.two" "sec" 600000 (by decide),
    h2 0 "a.b.c" "sec" 600000 "a" "b" "c" (by decide) (by decide),
    h3 700000 "a.b.c" "sec" 600000 "a" "b" "c" 10 (by decide) (by decide) (by decide),
    h4 11 "a.b.c" "sec" (-1) "a" "b" "c" 10 (by decide) (by decide) (by decide) (by decide)⟩

/-! ## Role-mapper lemmas -/

theorem list_contains_iff_mem (l : List String) (a : String) :
    l.contains a = true ↔ a ∈ l := by
  induction l with
  | nil => simp
  | cons x xs ih =>
    simp only [List.contains_cons, Bool.or_eq_true, List.mem_cons, ih]
    constructor
    · rintro (hx | hm)
      · exact Or.inl (eq_of_beq hx)
      · exact Or.inr hm
    · rintro (hx | hm)
      · exact Or.inl (by simp [hx])
      · exact Or.inr hm

theorem mapRoleFromClaim_none (g : String) : mapRoleFromClaim g none = "user" := rfl

theorem mapRoleFromClaim_arr (g : String) (xs : List JsValue) :
    mapRoleFromClaim g (some (JsValue.jArr xs))
      = if xs.any (fun x => jsStrictEqString x g) then "admin" else "user" := rfl

theorem mapRoleFromClaim_str (g s : String) :
    mapRoleFromClaim g (some (JsValue.jStr s))
      = if s == "" then "user"
        else if s == g then "admin"
        else if (commaSplitTrim s).contains g then "admin"
        else "user" := rfl

theorem mapOidcRole_def (roleClaim adminGroup : String)
    (userInfo idTokenClaims : ClaimsMap) :
    mapOidcRole roleClaim adminGroup userInfo idTokenClaims
      = mapRoleFromClaim adminGroup
          (jsCoalesce (jsLookup userInfo roleClaim) (jsLookup idTokenClaims roleClaim)) := rfl

/-- C3 counterexample: with the configured admin group equal to the empty
string and a string claim equal to it, the claim's rule demands
`"admin"` (the string equals the admin group exactly, as the
transcription `mapRoleClaimC3Spec` computes) but the source's falsiness
guard returns `"user"`. -/
theorem claimC3_counterexample :
    mapOidcRole "r" "" [("r", JsValue.jStr "")] [] = "user"
    ∧ mapRoleClaimC3Spec "r" "" [("r", JsValue.jStr "")] [] = "admin"
    ∧ ("user" : String) ≠ "admin" := by
  refine ⟨rfl, rfl, by decide⟩

/-- C3 (amended): `mapOidcRole` always returns `"admin"` or `"user"`,
reading the role claim from `userInfo` with nullish fallback to the
identity-token claims; an absent claim yields `"user"`; a JavaScript-falsy
claim value (`null`, `false`, `0`, or the empty string) yields `"user"`
before any type dispatch — in particular an empty-string claim never
yields `"admin"`, even when the admin group is the empty string; an array
claim yields `"admin"` iff the admin group is strictly equal to one of
its elements; a non-empty string claim yields `"admin"` iff it equals the
admin group exactly or the admin group appears as a trimmed element of
its comma-split; every other claim value type yields `"user"`. -/
theorem claimC3_role_mapping_amended (roleClaim adminGroup : String)
    (userInfo idTokenClaims : ClaimsMap) :
    (mapOidcRole roleClaim adminGroup userInfo idTokenClaims = "admin"
      ∨ mapOidcRole roleClaim adminGroup userInfo idTokenClaims = "user")
    ∧ (jsCoalesce (jsLookup userInfo roleClaim) (jsLookup idTokenClaims roleClaim) = none →
      mapOidcRole roleClaim adminGroup userInfo idTokenClaims = "user")
    ∧ (∀ v, jsCoalesce (jsLookup userInfo roleClaim) (jsLookup idTokenClaims roleClaim) = some v →
      isJsFalsy v = true → mapOidcRole roleClaim adminGroup userInfo idTokenClaims = "user")
    ∧ (∀ xs, jsCoalesce (jsLookup userInfo roleClaim) (jsLookup idTokenClaims roleClaim)
        = some (JsValue.jArr xs) →
      (mapOidcRole roleClaim adminGroup userInfo idTokenClaims = "admin"
        ↔ xs.any (fun x => jsStrictEqString x adminGroup) = true))
    ∧ (∀ s, jsCoalesce (jsLookup userInfo roleClaim) (jsLookup idTokenClaims roleClaim)
        = some (JsValue.jStr s) → s ≠ "" →
      (mapOidcRole roleClaim adminGroup userInfo idTokenClaims = "admin"
        ↔ (s = adminGroup ∨ adminGroup ∈ commaSplitTrim s)))
    ∧ (∀ v, jsCoalesce (jsLookup userInfo roleClaim) (jsLookup idTokenClaims roleClaim) = some v →
      isJsFalsy v = false → (∀ xs, v ≠ JsValue.jArr xs) → (∀ s, v ≠ JsValue.jStr s) →
      mapOidcRole roleClaim adminGroup userInfo idTokenClaims = "user") := by
  refine ⟨?_, ?_, ?_, ?_, ?_, ?_⟩
  · rw [mapOidcRole_def]
    rcases jsCoalesce (jsLookup userInfo roleClaim) (jsLookup idTokenClaims roleClaim)
      with _ | v
    · right; rfl
    · cases v with
      | jArr xs =>
        rw [mapRoleFromClaim_arr]
        by_cases ha : xs.any (fun x => jsStrictEqString x adminGroup)
        · left; rw [if_pos ha]
        · right; rw [if_neg ha]
      | jStr s =>
        rw [mapRoleFromClaim_str]
        by_cases h0 : s == ""
        · right; rw [if_pos h0]
        · rw [if_neg h0]
          by_cases h1 : s == adminGroup
          · left; rw [if_pos h1]
          · rw [if_neg h1]
            by_cases h2 : (commaSplitTrim s).contains adminGroup
            · left; rw [if_pos h2]
            · right; rw [if_neg h2]
      | jNull => right; rfl
      | jBool b => cases b
                   · right; rfl
                   · right; rfl
      | jNum n =>
        right
        show (if isJsFalsy (JsValue.jNum n) then "user" else "user") = "user"
        split <;> rfl
      | jObj fs => right; rfl
  · intro h
    rw [mapOidcRole_def, h, mapRoleFromClaim_none]
  · intro v h hf
    rw [mapOidcRole_def, h]
    show (if isJsFalsy v then "user" else _) = "user"
    rw [if_pos hf]
  · intro xs h
    rw [mapOidcRole_def, h, mapRoleFromClaim_arr]
    by_cases ha : xs.any (fun x => jsStrictEqString x adminGroup)
    · rw [if_pos ha]
      simp [ha]
    · rw [if_neg ha]
      simp only [Bool.not_eq_true] at ha
      rw [ha]
      simp
  · intro s h hs
    rw [mapOidcRole_def, h, mapRoleFromClaim_str]
    rw [if_neg (by simp [hs])]
    by_cases h1 : s == adminGroup
    · rw [if_pos h1]
      have he : s = adminGroup := eq_of_beq h1
      simp [he]
    · rw [if_neg h1]
      have hne : ¬(s = adminGroup) := fun he => h1 (by simp [he])
      by_cases h2 : (commaSplitTrim s).contains adminGroup
      · rw [if_pos h2]
        simp only [true_iff]
        exact Or.inr ((list_contains_iff_mem _ _).1 h2)
      · rw [if_neg h2]
        have hnm : adminGroup ∉ commaSplitTrim s :=
          fun hm => h2 ((list_contains_iff_mem _ _).2 hm)
        constructor
        · intro hcontra
          exact absurd hcontra (by decide)
        · rintro (he | hm)
          · exact absurd he hne
          · exact absurd hm hnm
  · intro v h hf hna hns
    rw [mapOidcRole_def, h]
    show (if isJsFalsy v then "user" else _) = "user"
    rw [if_neg (by simp [hf])]
    cases v with
    | jArr xs => exact absurd rfl (hna xs)
    | jStr s => exact absurd rfl (hns s)
    | jNull => rfl
    | jBool b => rfl
    | jNum n => rfl
    | jObj fs => rfl

/-- Witness for C3's amended theorem: a groups array containing the admin
group maps to `"admin"`; an absent claim maps to `"user"`. -/
theorem claimC3_witness :
    mapOidcRole "groups" "umami-admin"
      [("groups", JsValue.jArr [JsValue.jStr "users", JsValue.jStr "umami-admin"])] []
      = "admin"
    ∧ mapOidcRole "groups" "umami-admin" [] [] = "user" := by
  constructor
  · exact ((claimC3_role_mapping_amended "groups" "umami-admin"
      [("groups", JsValue.jArr [JsValue.jStr "users", JsValue.jStr "umami-admin"])] []).2.2.2.1
      [JsValue.jStr "users", JsValue.jStr "umami-admin"] rfl).2 (by decide)
  · exact (claimC3_role_mapping_amended "groups" "umami-admin" [] []).2.1 rfl

/-! ## Callback CSRF-check lemmas -/

theorem callbackCsrfCheck_eq (hmac : HmacFun) (now : Int) (savedState : Option String)
    (state appSecret : String) :
    callbackCsrfCheck hmac now savedState state appSecret
      = (if ((match savedState with
              | none => true
              | some s => s == "") || (savedState != some state)) = true
         then Except.error oidcStateMismatchMessage
         else if (!verifyState hmac now state appSecret defaultStateMaxAgeMs) = true
         then Except.error oidcStateVerifyFailedMessage
         else Except.ok ()) := rfl

theorem callbackCsrfCheck_mismatch (hmac : HmacFun) (now : Int)
    (savedState : Option String) (state appSecret : String)
    (h : savedState = none ∨ savedState = some "" ∨ savedState ≠ some state) :
    callbackCsrfCheck hmac now savedState state appSecret
      = .error oidcStateMismatchMessage := by
  rw [callbackCsrfCheck_eq]
  rcases h with h | h | h
  · subst h; rfl
  · subst h; rfl
  · have hbne : (savedState != some state) = true := by
      simp only [bne_iff_ne, ne_eq]
      exact h
    rw [hbne, Bool.or_true, if_pos rfl]

theorem callbackCsrfCheck_verify_failed (hmac : HmacFun) (now : Int)
    (state appSecret : String) (hne : state ≠ "")
    (hv : verifyState hmac now state appSecret defaultStateMaxAgeMs = false) :
    callbackCsrfCheck hmac now (some state) state appSecret
      = .error oidcStateVerifyFailedMessage := by
  rw [callbackCsrfCheck_eq]
  have hfal : (state == "") = false := by simp [hne]
  have hbne : ((some state : Option String) != some state) = false := by simp
  have hmatch : (match (some state : Option String) with
    | none => true
    | some s => s == "") = (state == "") := rfl
  rw [hbne, hmatch, hfal, Bool.or_false, if_neg (by simp), hv]
  rfl

theorem callbackCsrfCheck_pass (hmac : HmacFun) (now : Int)
    (state appSecret : String) (hne : state ≠ "")
    (hv : verifyState hmac now state appSecret defaultStateMaxAgeMs = true) :
    callbackCsrfCheck hmac now (some state) state appSecret = .ok () := by
  rw [callbackCsrfCheck_eq]
  have hfal : (state == "") = false := by simp [hne]
  have hbne : ((some state : Option String) != some state) = false := by simp
  have hmatch : (match (some state : Option String) with
    | none => true
    | some s => s == "") = (state == "") := rfl
  rw [hbne, hmatch, hfal, Bool.or_false, if_neg (by simp), hv]
  rfl

/-- C4 counterexample: a state-vs-cookie mismatch and a failed signature
verification produce different client-visible error messages, so the
redirect does reveal which of the two occurred (the claim asserts all
three CSRF causes are indistinguishable to the client). -/
theorem claimC4_counterexample :
    callbackCsrfCheck (fun _ _ => List.range 32) 0 (some "x") "a.b.c" "k"
      = .error oidcStateMismatchMessage
    ∧ callbackCsrfCheck (fun _ _ => List.range 32) 0 (some "a.b.c") "a.b.c" "k"
      = .error oidcStateVerifyFailedMessage
    ∧ oidcStateMismatchMessage ≠ oidcStateVerifyFailedMessage := by
  refine ⟨rfl, rfl, by decide⟩

/-- C4 (amended): a bad signature and an expired state are
indistinguishable to the client — every verification failure of the
state (for whichever of the two reasons) redirects with the single
message of `oidcStateVerifyFailedMessage` — and every state-vs-cookie
mismatch (cookie absent, empty, or different) redirects with the distinct
message of `oidcStateMismatchMessage`; the two messages differ, so the
mismatch cause is distinguishable from the other two, contrary to the
original claim. -/
theorem claimC4_csrf_messages_amended (hmac : HmacFun) :
    (∀ (now : Int) (savedState : Option String) (state appSecret : String),
      (savedState = none ∨ savedState = some "" ∨ savedState ≠ some state) →
      callbackCsrfCheck hmac now savedState state appSecret
        = .error oidcStateMismatchMessage)
    ∧ (∀ (now : Int) (state appSecret : String), state ≠ "" →
      verifyState hmac now state appSecret defaultStateMaxAgeMs = false →
      callbackCsrfCheck hmac now (some state) state appSecret
        = .error oidcStateVerifyFailedMessage)
    ∧ (∀ (now : Int) (state appSecret : String), state ≠ "" →
      verifyState hmac now state appSecret defaultStateMaxAgeMs = true →
      callbackCsrfCheck hmac now (some state) state appSecret = .ok ())
    ∧ oidcStateMismatchMessage ≠ oidcStateVerifyFailedMessage :=
  ⟨callbackCsrfCheck_mismatch hmac, callbackCsrfCheck_verify_failed hmac,
    callbackCsrfCheck_pass hmac, by decide⟩

/-- Witness for C4's amended theorem at concrete inputs: an absent cookie
yields the mismatch message, and a tampered three-part state (whose
signature cannot match) yields the verification-failure message. -/
theorem claimC4_witness :
    callbackCsrfCheck (fun _ _ => List.range 32) 0 none "a.b.c" "k"
      = .error oidcStateMismatchMessage
    ∧ callbackCsrfCheck (fun _ _ => List.range 32) 0 (some "a.b.c") "a.b.c" "k"
      = .error oidcStateVerifyFailedMessage := by
  constructor
  · exact (claimC4_csrf_messages_amended (fun _ _ => List.range 32)).1 0 none "a.b.c" "k"
      (Or.inl rfl)
  · exact (claimC4_csrf_messages_amended (fun _ _ => List.range 32)).2.1 0 "a.b.c" "k"
      (by decide) (by decide)

/-! ## Discovery-cache lemmas -/

theorem getDiscovery_eq_cached (st : DiscoveryCacheState) (now : Int)
    (issuerUrl : String) (fetchEnv : String → FetchOutcome) (cached : OidcDiscovery)
    (hdoc : st.doc = some cached) :
    getDiscovery st now issuerUrl fetchEnv
      = if now - st.time < discoveryTTLms then ((.ok cached : Except String OidcDiscovery), st)
        else getDiscovery.getDiscoveryFetch st now issuerUrl fetchEnv := by
  unfold getDiscovery
  rw [hdoc]

theorem getDiscovery_eq_empty (st : DiscoveryCacheState) (now : Int)
    (issuerUrl : String) (fetchEnv : String → FetchOutcome) (hdoc : st.doc = none) :
    getDiscovery st now issuerUrl fetchEnv
      = getDiscovery.getDiscoveryFetch st now issuerUrl fetchEnv := by
  unfold getDiscovery
  rw [hdoc]

theorem getDiscoveryFetch_error (st : DiscoveryCacheState) (now : Int)
    (issuerUrl : String) (fetchEnv : String → FetchOutcome) (status : Nat)
    (statusText : String)
    (hfetch : fetchEnv (wellKnownUrl issuerUrl) = .httpError status statusText) :
    getDiscovery.getDiscoveryFetch st now issuerUrl fetchEnv
      = (.error (discoveryFailureMessage status statusText (wellKnownUrl issuerUrl)), st) := by
  unfold getDiscovery.getDiscoveryFetch
  rw [hfetch]

theorem getDiscoveryFetch_ok (st : DiscoveryCacheState) (now : Int)
    (issuerUrl : String) (fetchEnv : String → FetchOutcome) (doc : OidcDiscovery)
    (hfetch : fetchEnv (wellKnownUrl issuerUrl) = .ok doc) :
    getDiscovery.getDiscoveryFetch st now issuerUrl fetchEnv
      = (.ok doc, { doc := some doc, time := now }) := by
  unfold getDiscovery.getDiscoveryFetch
  rw [hfetch]

/-- C6: the discovery cache serves a cached document exactly while its age
is strictly below the 5-minute TTL (leaving the cache unchanged and
without consulting the network); when the slot is empty or the age is at
or past the TTL, the well-known URL of the issuer is fetched: a non-ok
response yields the thrown discovery-failure message carrying the HTTP
status and leaves the cache unchanged, and an ok response returns the
fetched document and replaces the single cached entry and its
timestamp. -/
theorem claimC6_discovery_cache (st : DiscoveryCacheState) (now : Int)
    (issuerUrl : String) (fetchEnv : String → FetchOutcome) :
    (∀ cached, st.doc = some cached → now - st.time < discoveryTTLms →
      getDiscovery st now issuerUrl fetchEnv = (.ok cached, st))
    ∧ (∀ status statusText, (st.doc = none ∨ discoveryTTLms ≤ now - st.time) →
      fetchEnv (wellKnownUrl issuerUrl) = .httpError status statusText →
      getDiscovery st now issuerUrl fetchEnv
        = (.error (discoveryFailureMessage status statusText (wellKnownUrl issuerUrl)), st))
    ∧ (∀ doc, (st.doc = none ∨ discoveryTTLms ≤ now - st.time) →
      fetchEnv (wellKnownUrl issuerUrl) = .ok doc →
      getDiscovery st now issuerUrl fetchEnv = (.ok doc, { doc := some doc, time := now })) := by
  refine ⟨?_, ?_, ?_⟩
  · intro cached hdoc hfresh
    rw [getDiscovery_eq_cached st now issuerUrl fetchEnv cached hdoc, if_pos hfresh]
  · intro status statusText hstale hfetch
    rcases hstale with hnone | hold
    · rw [getDiscovery_eq_empty st now issuerUrl fetchEnv hnone,
        getDiscoveryFetch_error st now issuerUrl fetchEnv status statusText hfetch]
    · rcases hdoc : st.doc with _ | cached
      · rw [getDiscovery_eq_empty st now issuerUrl fetchEnv hdoc,
          getDiscoveryFetch_error st now issuerUrl fetchEnv status statusText hfetch]
      · rw [getDiscovery_eq_cached st now issuerUrl fetchEnv cached hdoc,
          if_neg (by omega),
          getDiscoveryFetch_error st now issuerUrl fetchEnv status statusText hfetch]
  · intro doc hstale hfetch
    rcases hstale with hnone | hold
    · rw [getDiscovery_eq_empty st now issuerUrl fetchEnv hnone,
        getDiscoveryFetch_ok st now issuerUrl fetchEnv doc hfetch]
    · rcases hdoc : st.doc with _ | cached
      · rw [getDiscovery_eq_empty st now issuerUrl fetchEnv hdoc,
          getDiscoveryFetch_ok st now issuerUrl fetchEnv doc hfetch]
      · rw [getDiscovery_eq_cached st now issuerUrl fetchEnv cached hdoc,
          if_neg (by omega),
          getDiscoveryFetch_ok st now issuerUrl fetchEnv doc hfetch]

/-- Witness for C6 at concrete cache states: a document cached 299999 ms
ago is served from the cache; at exactly the TTL the fetch happens — a
503 yields the failure message carrying the status, and an ok response
replaces the entry. -/
theorem claimC6_witness :
    getDiscovery ⟨some ⟨"a", "t", "u", "j", "i", none⟩, 0⟩ 299999 "https://iss"
        (fun _ => .httpError 503 "Service Unavailable")
      = (.ok ⟨"a", "t", "u", "j", "i", none⟩, ⟨some ⟨"a", "t", "u", "j", "i", none⟩, 0⟩)
    ∧ getDiscovery ⟨some ⟨"a", "t", "u", "j", "i", none⟩, 0⟩ 300000 "https://iss"
        (fun _ => .httpError 503 "Service Unavailable")
      = (.error (discoveryFailureMessage 503 "Service Unavailable" (wellKnownUrl "https://iss")),
          ⟨some ⟨"a", "t", "u", "j", "i", none⟩, 0⟩)
    ∧ getDiscovery ⟨none, 0⟩ 7 "https://iss" (fun _ => .ok ⟨"a2", "t2", "u2", "j2", "i2", none⟩)
      = (.ok ⟨"a2", "t2", "u2", "j2", "i2", none⟩, ⟨some ⟨"a2", "t2", "u2", "j2", "i2", none⟩, 7⟩) := by
  refine ⟨?_, ?_, ?_⟩
  · exact (claimC6_discovery_cache _ 299999 "https://iss" _).1 _ rfl (by decide)
  · exact (claimC6_discovery_cache _ 300000 "https://iss" _).2.1 503 "Service Unavailable"
      (Or.inr (by decide)) rfl
  · exact (claimC6_discovery_cache _ 7 "https://iss" _).2.2 _ (Or.inl rfl) rfl

/-! ## Team-engine lemmas -/

theorem listContainsStr_iff (l : List String) (a : String) :
    l.contains a = true ↔ a ∈ l :=
  list_contains_iff_mem l a

theorem ensureTeamMembership_eq (db : DbState) (uid t role : String) :
    ensureTeamMembership db uid t role
      = if (!db.teams.contains t) = true then db
        else if (db.teamUsers.any (fun m => m.userId == uid && m.teamId == t)) = true then db
        else { db with
          teamUsers := db.teamUsers
            ++ [{ userId := uid, teamId := t,
                  role := if role == "" then "team_member" else role }] } := rfl

theorem ensureTeamMembership_noteam (db : DbState) (uid t role : String)
    (h : db.teams.contains t = false) :
    ensureTeamMembership db uid t role = db := by
  rw [ensureTeamMembership_eq, if_pos (by rw [h]; rfl)]

theorem ensureTeamMembership_member (db : DbState) (uid t role : String)
    (h : db.teamUsers.any (fun m => m.userId == uid && m.teamId == t) = true) :
    ensureTeamMembership db uid t role = db := by
  rcases hc : db.teams.contains t with _ | _
  · exact ensureTeamMembership_noteam db uid t role hc
  · rw [ensureTeamMembership_eq, if_neg (by rw [hc]; simp), if_pos h]

theorem ensureTeamMembership_adds (db : DbState) (uid t role : String)
    (hc : db.teams.contains t = true)
    (h : db.teamUsers.any (fun m => m.userId == uid && m.teamId == t) = false) :
    ensureTeamMembership db uid t role
      = { db with
          teamUsers := db.teamUsers
            ++ [{ userId := uid, teamId := t,
                  role := if role == "" then "team_member" else role }] } := by
  rw [ensureTeamMembership_eq, if_neg (by rw [hc]; simp), if_neg (by rw [h]; simp)]

theorem ensureTeamMembership_teams (db : DbState) (uid t role : String) :
    (ensureTeamMembership db uid t role).teams = db.teams := by
  rcases hc : db.teams.contains t with _ | _
  · rw [ensureTeamMembership_noteam db uid t role hc]
  · rcases ha : db.teamUsers.any (fun m => m.userId == uid && m.teamId == t) with _ | _
    · rw [ensureTeamMembership_adds db uid t role hc ha]
    · rw [ensureTeamMembership_member db uid t role ha]

theorem ensureTeamMembership_mem (db : DbState) (uid t role : String)
    (m : TeamMembership) (h : m ∈ db.teamUsers) :
    m ∈ (ensureTeamMembership db uid t role).teamUsers := by
  rcases hc : db.teams.contains t with _ | _
  · rw [ensureTeamMembership_noteam db uid t role hc]; exact h
  · rcases ha : db.teamUsers.any (fun m => m.userId == uid && m.teamId == t) with _ | _
    · rw [ensureTeamMembership_adds db uid t role hc ha]
      exact List.mem_append_left _ h
    · rw [ensureTeamMembership_member db uid t role ha]; exact h

theorem ensureTeamMembership_creates (db : DbState) (uid t role : String)
    (h : db.teams.contains t = true) :
    ∃ m ∈ (ensureTeamMembership db uid t role).teamUsers,
      m.userId = uid ∧ m.teamId = t := by
  rcases ha : db.teamUsers.any (fun m => m.userId == uid && m.teamId == t) with _ | _
  · rw [ensureTeamMembership_adds db uid t role h ha]
    exact ⟨{ userId := uid, teamId := t, role := if role == "" then "team_member" else role },
      List.mem_append_right _ (by simp), rfl, rfl⟩
  · rw [ensureTeamMembership_member db uid t role ha]
    obtain ⟨m, hm, hp⟩ := List.any_eq_true.mp ha
    rw [Bool.and_eq_true] at hp
    exact ⟨m, hm, eq_of_beq hp.1, eq_of_beq hp.2⟩

theorem ensureTeamMembership_adds_users (db : DbState) (uid t role : String)
    (hc : db.teams.contains t = true)
    (h : db.teamUsers.any (fun m => m.userId == uid && m.teamId == t) = false) :
    (ensureTeamMembership db uid t role).teamUsers
      = db.teamUsers
        ++ [{ userId := uid, teamId := t,
              role := if role == "" then "team_member" else role }] := by
  rw [ensureTeamMembership_adds db uid t role hc h]

theorem ensureTeamMembership_filter_preserved (db : DbState) (uid t t2 role2 : String)
    (hmem : ∃ m ∈ db.teamUsers, m.userId = uid ∧ m.teamId = t) :
    (ensureTeamMembership db uid t2 role2).teamUsers.filter
        (fun x => x.userId == uid && x.teamId == t)
      = db.teamUsers.filter (fun x => x.userId == uid && x.teamId == t) := by
  rcases hc : db.teams.contains t2 with _ | _
  · rw [ensureTeamMembership_noteam db uid t2 role2 hc]
  · rcases ha : db.teamUsers.any (fun m => m.userId == uid && m.teamId == t2) with _ | _
    · by_cases ht : t2 = t
      · subst ht
        obtain ⟨m, hm, hu, htid⟩ := hmem
        have htrue : (db.teamUsers.any fun m => m.userId == uid && m.teamId == t2) = true :=
          List.any_eq_true.mpr ⟨m, hm, by simp [hu, htid]⟩
        rw [htrue] at ha
        exact absurd ha (by simp)
      · have hbe : (t2 == t) = false := by simp [ht]
        have hsing : List.filter (fun x => x.userId == uid && x.teamId == t)
            [({ userId := uid, teamId := t2,
                role := if role2 == "" then "team_member" else role2 } : TeamMembership)]
            = [] := by
          simp [List.filter, hbe]
        rw [ensureTeamMembership_adds_users db uid t2 role2 hc ha, List.filter_append,
          hsing, List.append_nil]
    · rw [ensureTeamMembership_member db uid t2 role2 ha]

theorem processTeamEntry_eq_none (uid : String) (ui ic : ClaimsMap) (db : DbState)
    (entry : String × List TeamClaimRule)
    (h : firstMatchingRule entry.2 ui ic = none) :
    processTeamEntry uid ui ic db entry = db := by
  unfold processTeamEntry
  rw [h]

theorem processTeamEntry_eq_some (uid : String) (ui ic : ClaimsMap) (db : DbState)
    (entry : String × List TeamClaimRule) (r : TeamClaimRule)
    (h : firstMatchingRule entry.2 ui ic = some r) :
    processTeamEntry uid ui ic db entry = ensureTeamMembership db uid entry.1 r.teamRole := by
  unfold processTeamEntry
  rw [h]

theorem processTeamEntry_teams (uid : String) (ui ic : ClaimsMap) (db : DbState)
    (entry : String × List TeamClaimRule) :
    (processTeamEntry uid ui ic db entry).teams = db.teams := by
  rcases h : firstMatchingRule entry.2 ui ic with _ | r
  · rw [processTeamEntry_eq_none uid ui ic db entry h]
  · rw [processTeamEntry_eq_some uid ui ic db entry r h, ensureTeamMembership_teams]

theorem processTeamEntry_mem (uid : String) (ui ic : ClaimsMap) (db : DbState)
    (entry : String × List TeamClaimRule) (m : TeamMembership) (h : m ∈ db.teamUsers) :
    m ∈ (processTeamEntry uid ui ic db entry).teamUsers := by
  rcases hf : firstMatchingRule entry.2 ui ic with _ | r
  · rw [processTeamEntry_eq_none uid ui ic db entry hf]; exact h
  · rw [processTeamEntry_eq_some uid ui ic db entry r hf]
    exact ensureTeamMembership_mem db uid entry.1 r.teamRole m h

theorem processRulesList_cons (uid : String) (ui ic : ClaimsMap)
    (e : String × List TeamClaimRule) (M : TeamRulesMap) (db : DbState) :
    processRulesList uid ui ic (e :: M) db
      = processRulesList uid ui ic M (processTeamEntry uid ui ic db e) := rfl

theorem processRulesList_append (uid : String) (ui ic : ClaimsMap)
    (m1 m2 : TeamRulesMap) (db : DbState) :
    processRulesList uid ui ic (m1 ++ m2) db
      = processRulesList uid ui ic m2 (processRulesList uid ui ic m1 db) := by
  induction m1 generalizing db with
  | nil => rfl
  | cons e m1 ih =>
    simp only [List.cons_append, processRulesList_cons]
    exact ih (processTeamEntry uid ui ic db e)

theorem processRulesList_teams (uid : String) (ui ic : ClaimsMap)
    (M : TeamRulesMap) (db : DbState) :
    (processRulesList uid ui ic M db).teams = db.teams := by
  induction M generalizing db with
  | nil => rfl
  | cons e M ih =>
    rw [processRulesList_cons, ih, processTeamEntry_teams]

theorem processRulesList_mem (uid : String) (ui ic : ClaimsMap)
    (M : TeamRulesMap) (db : DbState) (m : TeamMembership) (h : m ∈ db.teamUsers) :
    m ∈ (processRulesList uid ui ic M db).teamUsers := by
  induction M generalizing db with
  | nil => exact h
  | cons e M ih =>
    rw [processRulesList_cons]
    exact ih _ (processTeamEntry_mem uid ui ic db e m h)

theorem processRulesList_filter_preserved (uid : String) (ui ic : ClaimsMap)
    (M : TeamRulesMap) (db : DbState) (t : String)
    (hmem : ∃ m ∈ db.teamUsers, m.userId = uid ∧ m.teamId = t) :
    (processRulesList uid ui ic M db).teamUsers.filter
        (fun x => x.userId == uid && x.teamId == t)
      = db.teamUsers.filter (fun x => x.userId == uid && x.teamId == t) := by
  induction M generalizing db with
  | nil => rfl
  | cons e M ih =>
    rw [processRulesList_cons]
    have hstep : (processTeamEntry uid ui ic db e).teamUsers.filter
        (fun x => x.userId == uid && x.teamId == t)
        = db.teamUsers.filter (fun x => x.userId == uid && x.teamId == t) := by
      rcases hf : firstMatchingRule e.2 ui ic with _ | r
      · rw [processTeamEntry_eq_none uid ui ic db e hf]
      · rw [processTeamEntry_eq_some uid ui ic db e r hf]
        exact ensureTeamMembership_filter_preserved db uid t e.1 r.teamRole hmem
    have hmem2 : ∃ m ∈ (processTeamEntry uid ui ic db e).teamUsers,
        m.userId = uid ∧ m.teamId = t := by
      obtain ⟨m, hm, hp⟩ := hmem
      exact ⟨m, processTeamEntry_mem uid ui ic db e m hm, hp⟩
    rw [ih _ hmem2, hstep]

theorem processRulesList_noop (uid : String) (ui ic : ClaimsMap)
    (M : TeamRulesMap) (db : DbState)
    (h : ∀ e ∈ M, processTeamEntry uid ui ic db e = db) :
    processRulesList uid ui ic M db = db := by
  induction M with
  | nil => rfl
  | cons e M ih =>
    rw [processRulesList_cons, h e (by simp)]
    exact ih (fun e2 he2 => h e2 (by simp [he2]))

theorem processRulesList_idem (uid : String) (ui ic : ClaimsMap)
    (M : TeamRulesMap) (db : DbState) :
    processRulesList uid ui ic M (processRulesList uid ui ic M db)
      = processRulesList uid ui ic M db := by
  apply processRulesList_noop
  intro e he
  rcases hf : firstMatchingRule e.2 ui ic with _ | r
  · exact processTeamEntry_eq_none uid ui ic _ e hf
  · rw [processTeamEntry_eq_some uid ui ic _ e r hf]
    by_cases hteam : db.teams.contains e.1 = true
    · obtain ⟨s1, s2, hsplit⟩ := List.append_of_mem he
      have hdb1 : processRulesList uid ui ic M db
          = processRulesList uid ui ic s2
              (processTeamEntry uid ui ic (processRulesList uid ui ic s1 db) e) := by
        rw [hsplit, processRulesList_append, processRulesList_cons]
      have hteam2 : (processRulesList uid ui ic s1 db).teams.contains e.1 = true := by
        rw [processRulesList_teams]; exact hteam
      have hcreated : ∃ m ∈ (processTeamEntry uid ui ic
          (processRulesList uid ui ic s1 db) e).teamUsers,
          m.userId = uid ∧ m.teamId = e.1 := by
        rw [processTeamEntry_eq_some uid ui ic _ e r hf]
        exact ensureTeamMembership_creates _ uid e.1 r.teamRole hteam2
      have hmem : ∃ m ∈ (processRulesList uid ui ic M db).teamUsers,
          m.userId = uid ∧ m.teamId = e.1 := by
        obtain ⟨m, hm, hp⟩ := hcreated
        rw [hdb1]
        exact ⟨m, processRulesList_mem uid ui ic s2 _ m hm, hp⟩
      obtain ⟨m, hm, hu, ht⟩ := hmem
      exact ensureTeamMembership_member _ uid e.1 r.teamRole
        (List.any_eq_true.mpr ⟨m, hm, by simp [hu, ht]⟩)
    · apply ensureTeamMembership_noteam
      rw [processRulesList_teams]
      simpa using hteam

theorem firstMatchingRule_first (ui ic : ClaimsMap) (pre post : List TeamClaimRule)
    (r : TeamClaimRule)
    (hpre : ∀ r2 ∈ pre, matchesClaim (claimLookup ui ic r2.claimField) r2.claimValue = false)
    (hr : matchesClaim (claimLookup ui ic r.claimField) r.claimValue = true) :
    firstMatchingRule (pre ++ r :: post) ui ic = some r := by
  induction pre with
  | nil =>
    unfold firstMatchingRule
    simp only [List.nil_append, List.find?_cons, hr]
  | cons r2 pre ih =>
    unfold firstMatchingRule at ih ⊢
    simp only [List.cons_append, List.find?_cons, hpre r2 (by simp)]
    exact ih (fun r3 h3 => hpre r3 (by simp [h3]))

theorem processOidcTeamMappings_enabled (client : Option RedisClientState)
    (db : DbState) (uid : String) (ui ic : ClaimsMap) :
    processOidcTeamMappings ⟨true, client⟩ db uid ui ic
      = processRulesList uid ui ic (getAllTeamRules ⟨true, client⟩) db := rfl

theorem processOidcTeamMappings_disabled (client : Option RedisClientState)
    (db : DbState) (uid : String) (ui ic : ClaimsMap) :
    processOidcTeamMappings ⟨false, client⟩ db uid ui ic = db := rfl

/-- C7: team claim-rule mapping evaluates each team's rules only up to
the first matching rule and triggers at most one membership-ensure per
team with that rule's configured role (the entries before the match must
not match, the entries after it are ignored); memberships are never
removed; when the user is already a member of a team, that team's
membership rows (including their role) are left exactly unchanged by a
login; and processing a login twice is the same as processing it once. -/
theorem claimC7_team_mapping :
    (∀ (uid : String) (ui ic : ClaimsMap) (db : DbState) (m1 m2 : TeamRulesMap)
      (t : String) (pre post : List TeamClaimRule) (r : TeamClaimRule),
      (∀ r2 ∈ pre, matchesClaim (claimLookup ui ic r2.claimField) r2.claimValue = false) →
      matchesClaim (claimLookup ui ic r.claimField) r.claimValue = true →
      processOidcTeamMappings
          ⟨true, some ⟨some (m1 ++ (t, pre ++ r :: post) :: m2)⟩⟩ db uid ui ic
        = processRulesList uid ui ic m2
            (ensureTeamMembership (processRulesList uid ui ic m1 db) uid t r.teamRole))
    ∧ (∀ (rm : RedisModel) (db : DbState) (uid : String) (ui ic : ClaimsMap)
      (m : TeamMembership), m ∈ db.teamUsers →
      m ∈ (processOidcTeamMappings rm db uid ui ic).teamUsers)
    ∧ (∀ (rm : RedisModel) (db : DbState) (uid : String) (ui ic : ClaimsMap) (t : String),
      (∃ m ∈ db.teamUsers, m.userId = uid ∧ m.teamId = t) →
      (processOidcTeamMappings rm db uid ui ic).teamUsers.filter
          (fun x => x.userId == uid && x.teamId == t)
        = db.teamUsers.filter (fun x => x.userId == uid && x.teamId == t))
    ∧ (∀ (rm : RedisModel) (db : DbState) (uid : String) (ui ic : ClaimsMap),
      processOidcTeamMappings rm (processOidcTeamMappings rm db uid ui ic) uid ui ic
        = processOidcTeamMappings rm db uid ui ic) := by
  refine ⟨?_, ?_, ?_, ?_⟩
  · intro uid ui ic db m1 m2 t pre post r hpre hr
    rw [processOidcTeamMappings_enabled]
    have hall : getAllTeamRules ⟨true, some ⟨some (m1 ++ (t, pre ++ r :: post) :: m2)⟩⟩
        = m1 ++ (t, pre ++ r :: post) :: m2 := rfl
    rw [hall, processRulesList_append, processRulesList_cons,
      processTeamEntry_eq_some uid ui ic _ _ r (firstMatchingRule_first ui ic pre post r hpre hr)]
  · intro rm db uid ui ic m hm
    rcases rm with ⟨e, client⟩
    cases e
    · rw [processOidcTeamMappings_disabled]; exact hm
    · rw [processOidcTeamMappings_enabled]
      exact processRulesList_mem uid ui ic _ db m hm
  · intro rm db uid ui ic t hmem
    rcases rm with ⟨e, client⟩
    cases e
    · rw [processOidcTeamMappings_disabled]
    · rw [processOidcTeamMappings_enabled]
      exact processRulesList_filter_preserved uid ui ic _ db t hmem
  · intro rm db uid ui ic
    rcases rm with ⟨e, client⟩
    cases e
    · rw [processOidcTeamMappings_disabled, processOidcTeamMappings_disabled]
    · rw [processOidcTeamMappings_enabled]
      exact processRulesList_idem uid ui ic _ db

/-- Witness for C7 at the spec's end-to-end scenario: one configured rule
matching the user's `groups` claim grants exactly one membership with the
rule's team role, and a second login leaves the state unchanged. -/
theorem claimC7_witness :
    processOidcTeamMappings
        ⟨true, some ⟨some [("team1", [⟨"r1", "groups", "marketing-analytics", "team_member", "t0"⟩])]⟩⟩
        ⟨["team1"], []⟩ "u1" [("groups", JsValue.jArr [JsValue.jStr "marketing-analytics"])] []
      = ⟨["team1"], [⟨"u1", "team1", "team_member"⟩]⟩
    ∧ processOidcTeamMappings
        ⟨true, some ⟨some [("team1", [⟨"r1", "groups", "marketing-analytics", "team_member", "t0"⟩])]⟩⟩
        (processOidcTeamMappings
          ⟨true, some ⟨some [("team1", [⟨"r1", "groups", "marketing-analytics", "team_member", "t0"⟩])]⟩⟩
          ⟨["team1"], []⟩ "u1" [("groups", JsValue.jArr [JsValue.jStr "marketing-analytics"])] [])
        "u1" [("groups", JsValue.jArr [JsValue.jStr "marketing-analytics"])] []
      = processOidcTeamMappings
          ⟨true, some ⟨some [("team1", [⟨"r1", "groups", "marketing-analytics", "team_member", "t0"⟩])]⟩⟩
          ⟨["team1"], []⟩ "u1" [("groups", JsValue.jArr [JsValue.jStr "marketing-analytics"])] [] := by
  constructor
  · exact (claimC7_team_mapping).1 "u1"
      [("groups", JsValue.jArr [JsValue.jStr "marketing-analytics"])] [] ⟨["team1"], []⟩
      [] [] "team1" [] []
      ⟨"r1", "groups", "marketing-analytics", "team_member", "t0"⟩
      (fun r2 h2 => absurd h2 (List.not_mem_nil r2)) rfl
  · exact (claimC7_team_mapping).2.2.2 _ ⟨["team1"], []⟩ "u1"
      [("groups", JsValue.jArr [JsValue.jStr "marketing-analytics"])] []

/-- C8 counterexample: with the key-value store absent, rule addition is
not a silent no-op — `addTeamRule` has no `redis.enabled` guard and no
`try`/`catch`, so its unconditional `redis.client.set` call faults on the
absent client and the error propagates to the caller (its HTTP caller
avoids this only by answering 503 before reaching it). -/
theorem claimC8_counterexample :
    addTeamRule ⟨false, none⟩ "id1" "t0" "team1" "groups" "marketing" "team_member"
      = .error "TypeError: redis.client is not available" := rfl

/-- C8 (amended): with the key-value store absent, rule listing returns
the empty mapping, rule removal reports not-found without writing, and
login-time mapping leaves the database untouched — all without error;
rule addition alone is unguarded: it faults on the absent client instead
of completing as a no-op. -/
theorem claimC8_disabled_store_amended :
    (∀ client, getAllTeamRules ⟨false, client⟩ = [])
    ∧ (∀ client tid rid, removeTeamRule ⟨false, client⟩ tid rid = .ok (false, ⟨false, client⟩))
    ∧ (∀ client db uid ui ic, processOidcTeamMappings ⟨false, client⟩ db uid ui ic = db)
    ∧ (∀ uuid createdAt tid cf cv tr,
      addTeamRule ⟨false, none⟩ uuid createdAt tid cf cv tr
        = .error "TypeError: redis.client is not available") := by
  refine ⟨fun client => rfl, fun client tid rid => rfl,
    fun client db uid ui ic => rfl, fun uuid createdAt tid cf cv tr => rfl⟩

/-- C9: in team claim-rule matching a non-null, non-array, non-string
claim value is coerced with `String(...)` and compared: the number `42`
matches the rule value `"42"` and triggers a membership grant, whereas
the role mapper maps the same claim to `"user"`. -/
theorem claimC9_nonstring_claim_coercion :
    matchesClaim (some (JsValue.jNum 42)) "42" = true
    ∧ processOidcTeamMappings
        ⟨true, some ⟨some [("team1", [⟨"r1", "level", "42", "analyst", "t0"⟩])]⟩⟩
        ⟨["team1"], []⟩ "u1" [("level", JsValue.jNum 42)] []
      = ⟨["team1"], [⟨"u1", "team1", "analyst"⟩]⟩
    ∧ mapOidcRole "level" "42" [("level", JsValue.jNum 42)] [] = "user" :=
  ⟨rfl, rfl, rfl⟩

/-- C10: a well-formed three-segment token whose payload decodes to valid
JSON that is not an object is returned as the parsed value itself —
`bnVsbA` is base64url of `null` and `WzEsMl0` of `[1,2]` — not as an
empty claim set or a structured claims object. -/
theorem claimC10_nonobject_payload :
    parseIdTokenClaims "h.bnVsbA.s" = JsValue.jNull
    ∧ parseIdTokenClaims "h.WzEsMl0.s" = JsValue.jArr [JsValue.jNum 1, JsValue.jNum 2]
    ∧ JsValue.jNull ≠ JsValue.jObj []
    ∧ JsValue.jArr [JsValue.jNum 1, JsValue.jNum 2] ≠ JsValue.jObj [] :=
  ⟨rfl, rfl, fun h => JsValue.noConfusion h, fun h => JsValue.noConfusion h⟩

/-! ## base64url lemmas -/

theorem b64CharVal_b64Char (v : Nat) (h : v < 64) :
    b64CharVal (b64Char v) = some v := by
  by_cases h1 : v < 26
  · have ht : (b64Char v).toNat = 65 + v := by
      unfold b64Char
      rw [if_pos h1]
      exact charToNat_ofNat_small _ (by omega)
    unfold b64CharVal
    rw [ht, if_pos (by omega : 65 ≤ 65 + v ∧ 65 + v ≤ 90)]
    simp only [Option.some.injEq]
    omega
  · by_cases h2 : v < 52
    · have ht : (b64Char v).toNat = 97 + (v - 26) := by
        unfold b64Char
        rw [if_neg h1, if_pos h2]
        exact charToNat_ofNat_small _ (by omega)
      unfold b64CharVal
      rw [ht, if_neg (by omega), if_pos (by omega : 97 ≤ 97 + (v - 26) ∧ 97 + (v - 26) ≤ 122)]
      simp only [Option.some.injEq]
      omega
    · by_cases h3 : v < 62
      · have ht : (b64Char v).toNat = 48 + (v - 52) := by
          unfold b64Char
          rw [if_neg h1, if_neg h2, if_pos h3]
          exact charToNat_ofNat_small _ (by omega)
        unfold b64CharVal
        rw [ht, if_neg (by omega), if_neg (by omega),
          if_pos (by omega : 48 ≤ 48 + (v - 52) ∧ 48 + (v - 52) ≤ 57)]
        simp only [Option.some.injEq]
        omega
      · by_cases h4 : v = 62
        · subst h4; rfl
        · have h5 : v = 63 := by omega
          subst h5; rfl

theorem b64Char_ne_dot (v : Nat) (h : v < 64) : b64Char v ≠ '.' := by
  intro he
  have h1 := b64CharVal_b64Char v h
  rw [he] at h1
  have h2 : b64CharVal '.' = none := rfl
  rw [h2] at h1
  exact Option.noConfusion h1

theorem base64urlEncode_mem :
    ∀ (bs : List Nat) (c : Char), c ∈ base64urlEncode bs → ∃ v, v < 64 ∧ c = b64Char v
  | [], c, h => by simp [base64urlEncode] at h
  | [b1], c, h => by
    unfold base64urlEncode at h
    simp at h
    rcases h with h | h
    · exact ⟨b1 / 4 % 64, by omega, h⟩
    · exact ⟨(b1 % 4) * 16, by omega, h⟩
  | [b1, b2], c, h => by
    unfold base64urlEncode at h
    simp at h
    rcases h with h | h | h
    · exact ⟨b1 / 4 % 64, by omega, h⟩
    · exact ⟨(b1 % 4) * 16 + b2 / 16 % 16, by omega, h⟩
    · exact ⟨(b2 % 16) * 4, by omega, h⟩
  | b1 :: b2 :: b3 :: bs, c, h => by
    unfold base64urlEncode at h
    simp at h
    rcases h with h | h | h | h | h
    · exact ⟨b1 / 4 % 64, by omega, h⟩
    · exact ⟨(b1 % 4) * 16 + b2 / 16 % 16, by omega, h⟩
    · exact ⟨(b2 % 16) * 4 + b3 / 64 % 4, by omega, h⟩
    · exact ⟨b3 % 64, by omega, h⟩
    · exact base64urlEncode_mem bs c (by simpa using h)

theorem base64urlEncode_no_dot (bs : List Nat) : '.' ∉ base64urlEncode bs := by
  intro hmem
  obtain ⟨v, hv, he⟩ := base64urlEncode_mem bs '.' hmem
  exact b64Char_ne_dot v hv he.symm

theorem base64url_roundtrip :
    ∀ (bs : List Nat), (∀ b ∈ bs, b < 256) →
      base64urlDecode (base64urlEncode bs) = bs
  | [], _ => rfl
  | [b1], h => by
    have h1 : b1 < 256 := h b1 (by simp)
    unfold base64urlDecode base64urlEncode
    rw [List.filterMap_cons_some (b64CharVal_b64Char _ (by omega)),
      List.filterMap_cons_some (b64CharVal_b64Char _ (by omega)),
      List.filterMap_nil]
    show [(b1 / 4 % 64) * 4 + (b1 % 4) * 16 / 16] = [b1]
    have : (b1 / 4 % 64) * 4 + (b1 % 4) * 16 / 16 = b1 := by omega
    rw [this]
  | [b1, b2], h => by
    have h1 : b1 < 256 := h b1 (by simp)
    have h2 : b2 < 256 := h b2 (by simp)
    unfold base64urlDecode base64urlEncode
    rw [List.filterMap_cons_some (b64CharVal_b64Char _ (by omega)),
      List.filterMap_cons_some (b64CharVal_b64Char _ (by omega)),
      List.filterMap_cons_some (b64CharVal_b64Char _ (by omega)),
      List.filterMap_nil]
    show [(b1 / 4 % 64) * 4 + ((b1 % 4) * 16 + b2 / 16 % 16) / 16,
      (((b1 % 4) * 16 + b2 / 16 % 16) % 16) * 16 + (b2 % 16) * 4 / 4] = [b1, b2]
    have e1 : (b1 / 4 % 64) * 4 + ((b1 % 4) * 16 + b2 / 16 % 16) / 16 = b1 := by omega
    have e2 : (((b1 % 4) * 16 + b2 / 16 % 16) % 16) * 16 + (b2 % 16) * 4 / 4 = b2 := by omega
    rw [e1, e2]
  | b1 :: b2 :: b3 :: bs, h => by
    have h1 : b1 < 256 := h b1 (by simp)
    have h2 : b2 < 256 := h b2 (by simp)
    have h3 : b3 < 256 := h b3 (by simp)
    have htail := base64url_roundtrip bs (fun b hb => h b (by simp [hb]))
    unfold base64urlDecode base64urlEncode
    rw [List.filterMap_cons_some (b64CharVal_b64Char _ (by omega)),
      List.filterMap_cons_some (b64CharVal_b64Char _ (by omega)),
      List.filterMap_cons_some (b64CharVal_b64Char _ (by omega)),
      List.filterMap_cons_some (b64CharVal_b64Char _ (by omega))]
    show ((b1 / 4 % 64) * 4 + ((b1 % 4) * 16 + b2 / 16 % 16) / 16)
        :: ((((b1 % 4) * 16 + b2 / 16 % 16) % 16) * 16
            + ((b2 % 16) * 4 + b3 / 64 % 4) / 4)
        :: ((((b2 % 16) * 4 + b3 / 64 % 4) % 4) * 64 + b3 % 64)
        :: b64Regroup (List.filterMap b64CharVal (base64urlEncode bs))
      = b1 :: b2 :: b3 :: bs
    have e1 : (b1 / 4 % 64) * 4 + ((b1 % 4) * 16 + b2 / 16 % 16) / 16 = b1 := by omega
    have e2 : (((b1 % 4) * 16 + b2 / 16 % 16) % 16) * 16
        + ((b2 % 16) * 4 + b3 / 64 % 4) / 4 = b2 := by omega
    have e3 : (((b2 % 16) * 4 + b3 / 64 % 4) % 4) * 64 + b3 % 64 = b3 := by omega
    rw [e1, e2, e3]
    have hdec : b64Regroup (List.filterMap b64CharVal (base64urlEncode bs)) = bs := htail
    rw [hdec]

/-! ## UTF-8 lemmas -/

theorem utf8DecodeLoop_dec1 (fuel b : Nat) (bs : List Nat) (h : b < 128) :
    utf8DecodeLoop (fuel + 1) (b :: bs) = Char.ofNat b :: utf8DecodeLoop fuel bs := by
  simp only [utf8DecodeLoop]
  rw [if_pos h]

theorem utf8DecodeLoop_dec2 (fuel b b2 : Nat) (bs : List Nat)
    (h1 : 192 ≤ b) (h2 : b < 224) (hc : isUtf8Cont b2 = true)
    (hov : ¬ ((b - 192) * 64 + (b2 - 128) < 128)) :
    utf8DecodeLoop (fuel + 1) (b :: b2 :: bs) =
      Char.ofNat ((b - 192) * 64 + (b2 - 128)) :: utf8DecodeLoop fuel bs := by
  simp only [utf8DecodeLoop]
  rw [if_neg (by omega), if_pos (⟨h1, h2⟩ : 192 ≤ b ∧ b < 224)]
  simp only [hc, if_true]
  rw [if_neg hov]

theorem utf8DecodeLoop_dec3 (fuel b b2 b3 : Nat) (bs : List Nat)
    (h1 : 224 ≤ b) (h2 : b < 240) (hc2 : isUtf8Cont b2 = true) (hc3 : isUtf8Cont b3 = true)
    (hbad : ¬ ((b - 224) * 4096 + (b2 - 128) * 64 + (b3 - 128) < 2048
      ∨ (55296 ≤ (b - 224) * 4096 + (b2 - 128) * 64 + (b3 - 128)
         ∧ (b - 224) * 4096 + (b2 - 128) * 64 + (b3 - 128) < 57344))) :
    utf8DecodeLoop (fuel + 1) (b :: b2 :: b3 :: bs) =
      Char.ofNat ((b - 224) * 4096 + (b2 - 128) * 64 + (b3 - 128)) :: utf8DecodeLoop fuel bs := by
  simp only [utf8DecodeLoop]
  rw [if_neg (by omega), if_neg (by omega), if_pos (⟨h1, h2⟩ : 224 ≤ b ∧ b < 240)]
  simp only [hc2, hc3, Bool.and_self, if_true]
  rw [if_neg hbad]

theorem utf8DecodeLoop_dec4 (fuel b b2 b3 b4 : Nat) (bs : List Nat)
    (h1 : 240 ≤ b) (h2 : b < 248) (hc2 : isUtf8Cont b2 = true) (hc3 : isUtf8Cont b3 = true)
    (hc4 : isUtf8Cont b4 = true)
    (hbad : ¬ ((b - 240) * 262144 + (b2 - 128) * 4096 + (b3 - 128) * 64 + (b4 - 128) < 65536
      ∨ 1114112 ≤ (b - 240) * 262144 + (b2 - 128) * 4096 + (b3 - 128) * 64 + (b4 - 128))) :
    utf8DecodeLoop (fuel + 1) (b :: b2 :: b3 :: b4 :: bs) =
      Char.ofNat ((b - 240) * 262144 + (b2 - 128) * 4096 + (b3 - 128) * 64 + (b4 - 128))
        :: utf8DecodeLoop fuel bs := by
  simp only [utf8DecodeLoop]
  rw [if_neg (by omega), if_neg (by omega), if_neg (by omega),
    if_pos (⟨h1, h2⟩ : 240 ≤ b ∧ b < 248)]
  simp only [hc2, hc3, hc4, Bool.and_self, if_true]
  rw [if_neg hbad]

theorem utf8EncodeChar_eq1 (c : Char) (h : c.toNat < 128) :
    utf8EncodeChar c = [c.toNat] := by
  unfold utf8EncodeChar; rw [if_pos h]

theorem utf8EncodeChar_eq2 (c : Char) (h1 : ¬ c.toNat < 128) (h2 : c.toNat < 2048) :
    utf8EncodeChar c = [192 + c.toNat / 64, 128 + c.toNat % 64] := by
  unfold utf8EncodeChar; rw [if_neg h1, if_pos h2]

theorem utf8EncodeChar_eq3 (c : Char) (h1 : ¬ c.toNat < 2048) (h2 : c.toNat < 65536) :
    utf8EncodeChar c = [224 + c.toNat / 4096, 128 + c.toNat / 64 % 64, 128 + c.toNat % 64] := by
  unfold utf8EncodeChar; rw [if_neg (by omega), if_neg h1, if_pos h2]

theorem utf8EncodeChar_eq4 (c : Char) (h1 : ¬ c.toNat < 65536) :
    utf8EncodeChar c = [240 + c.toNat / 262144, 128 + c.toNat / 4096 % 64,
      128 + c.toNat / 64 % 64, 128 + c.toNat % 64] := by
  unfold utf8EncodeChar; rw [if_neg (by omega), if_neg (by omega), if_neg h1]

theorem char_toNat_valid (c : Char) :
    c.toNat < 55296 ∨ (57344 ≤ c.toNat ∧ c.toNat < 1114112) := c.valid

theorem charOfNat_toNat (c : Char) : Char.ofNat c.toNat = c := Char.ofNat_toNat c

theorem utf8DecodeLoop_encodeChar (c : Char) (fuel : Nat) (rest : List Nat) :
    utf8DecodeLoop (fuel + 1) (utf8EncodeChar c ++ rest) = c :: utf8DecodeLoop fuel rest := by
  have hvalid := char_toNat_valid c
  rcases Nat.lt_or_ge c.toNat 128 with h1 | h1
  · rw [utf8EncodeChar_eq1 c h1, List.singleton_append,
      utf8DecodeLoop_dec1 fuel _ rest h1, charOfNat_toNat]
  rcases Nat.lt_or_ge c.toNat 2048 with h2 | h2
  · rw [utf8EncodeChar_eq2 c (by omega) h2]
    show utf8DecodeLoop (fuel + 1)
      ((192 + c.toNat / 64) :: (128 + c.toNat % 64) :: rest) = _
    rw [utf8DecodeLoop_dec2 fuel _ _ rest (by omega) (by omega)
      (by simp [isUtf8Cont]; omega) (by omega)]
    have hv : (192 + c.toNat / 64 - 192) * 64 + (128 + c.toNat % 64 - 128) = c.toNat := by
      omega
    rw [hv, charOfNat_toNat]
  rcases Nat.lt_or_ge c.toNat 65536 with h3 | h3
  · rw [utf8EncodeChar_eq3 c (by omega) h3]
    show utf8DecodeLoop (fuel + 1)
      ((224 + c.toNat / 4096) :: (128 + c.toNat / 64 % 64) :: (128 + c.toNat % 64) :: rest) = _
    rw [utf8DecodeLoop_dec3 fuel _ _ _ rest (by omega) (by omega)
      (by simp [isUtf8Cont]; omega) (by simp [isUtf8Cont]; omega)
      (by rcases hvalid with hs | hs <;> omega)]
    have hv : (224 + c.toNat / 4096 - 224) * 4096 + (128 + c.toNat / 64 % 64 - 128) * 64
        + (128 + c.toNat % 64 - 128) = c.toNat := by omega
    rw [hv, charOfNat_toNat]
  · rw [utf8EncodeChar_eq4 c (by omega)]
    show utf8DecodeLoop (fuel + 1)
      ((240 + c.toNat / 262144) :: (128 + c.toNat / 4096 % 64) :: (128 + c.toNat / 64 % 64)
        :: (128 + c.toNat % 64) :: rest) = _
    rw [utf8DecodeLoop_dec4 fuel _ _ _ _ rest (by omega)
      (by rcases hvalid with hs | hs <;> omega)
      (by simp [isUtf8Cont]; omega) (by simp [isUtf8Cont]; omega)
      (by simp [isUtf8Cont]; omega)
      (by rcases hvalid with hs | hs <;> omega)]
    have hv : (240 + c.toNat / 262144 - 240) * 262144 + (128 + c.toNat / 4096 % 64 - 128) * 4096
        + (128 + c.toNat / 64 % 64 - 128) * 64 + (128 + c.toNat % 64 - 128) = c.toNat := by
      omega
    rw [hv, charOfNat_toNat]

theorem utf8DecodeLoop_nil (fuel : Nat) : utf8DecodeLoop fuel [] = [] := by
  cases fuel <;> rfl

theorem utf8DecodeLoop_chain :
    ∀ (cs : List Char) (fuel : Nat) (rest : List Nat),
      utf8DecodeLoop (cs.length + fuel) (utf8Encode cs ++ rest) = cs ++ utf8DecodeLoop fuel rest
  | [], fuel, rest => by simp [utf8Encode]
  | c :: cs, fuel, rest => by
    show utf8DecodeLoop (cs.length + 1 + fuel) ((utf8EncodeChar c ++ utf8Encode cs) ++ rest) = _
    have hfl : cs.length + 1 + fuel = cs.length + fuel + 1 := by omega
    rw [hfl, List.append_assoc, utf8DecodeLoop_encodeChar,
      utf8DecodeLoop_chain cs fuel rest, List.cons_append]

theorem utf8_roundtrip (cs : List Char) : utf8DecodeLenient (utf8Encode cs) = cs := by
  have hlen : ∀ (l : List Char), l.length ≤ (utf8Encode l).length := by
    intro l
    induction l with
    | nil => simp [utf8Encode]
    | cons c cs ih =>
      show cs.length + 1 ≤ (utf8EncodeChar c ++ utf8Encode cs).length
      rw [List.length_append]
      have : 1 ≤ (utf8EncodeChar c).length := by
        unfold utf8EncodeChar
        split
        · simp
        · split
          · simp
          · split <;> simp
      omega
  obtain ⟨k, hk⟩ : ∃ k, (utf8Encode cs).length = cs.length + k :=
    ⟨(utf8Encode cs).length - cs.length, by have := hlen cs; omega⟩
  unfold utf8DecodeLenient
  rw [hk]
  have := utf8DecodeLoop_chain cs k []
  rw [List.append_nil] at this
  rw [this, utf8DecodeLoop_nil, List.append_nil]

theorem utf8EncodeChar_lt256 (c : Char) : ∀ b ∈ utf8EncodeChar c, b < 256 := by
  have hvalid := char_toNat_valid c
  intro b hb
  rcases Nat.lt_or_ge c.toNat 128 with h1 | h1
  · rw [utf8EncodeChar_eq1 c h1] at hb; simp at hb; omega
  rcases Nat.lt_or_ge c.toNat 2048 with h2 | h2
  · rw [utf8EncodeChar_eq2 c (by omega) h2] at hb; simp at hb; rcases hb with hb | hb <;> omega
  rcases Nat.lt_or_ge c.toNat 65536 with h3 | h3
  · rw [utf8EncodeChar_eq3 c (by omega) h3] at hb; simp at hb
    rcases hb with hb | hb | hb <;> omega
  · rw [utf8EncodeChar_eq4 c (by omega)] at hb; simp at hb
    rcases hvalid with hs | hs <;> rcases hb with hb | hb | hb | hb <;> omega

theorem utf8Encode_lt256 : ∀ (cs : List Char), ∀ b ∈ utf8Encode cs, b < 256
  | [], b, hb => by simp [utf8Encode] at hb
  | c :: cs, b, hb => by
    rcases List.mem_append.mp (by simpa [utf8Encode] using hb) with h | h
    · exact utf8EncodeChar_lt256 c b h
    · exact utf8Encode_lt256 cs b h

/-! ## Decimal number rendering and reparsing lemmas -/

theorem decLoop_cons (c : Char) (cs : List Char) (acc : Nat) :
    decLoop (c :: cs) acc
      = match decDigitVal c with
        | some d => decLoop cs (acc * 10 + d)
        | none => (acc, c :: cs) := rfl

theorem decLoop_cons_digit (c : Char) (d : Nat) (hc : decDigitVal c = some d)
    (cs : List Char) (acc : Nat) :
    decLoop (c :: cs) acc = decLoop cs (acc * 10 + d) := by
  rw [decLoop_cons, hc]

theorem decLoop_stop (cs : List Char) (h : numStop cs = true) (acc : Nat) :
    decLoop cs acc = (acc, cs) := by
  cases cs with
  | nil => rfl
  | cons c cs =>
    simp only [numStop, Bool.and_eq_true, Option.isNone_iff_eq_none] at h
    rw [decLoop_cons, h.1.1.1]

theorem decLoop_baseDigits :
    ∀ fuel n, n < fuel → ∀ rest acc,
      decLoop (baseDigits 10 fuel n ++ rest) acc
        = decLoop rest (acc * 10 ^ (baseDigits 10 fuel n).length + n) := by
  intro fuel
  induction fuel with
  | zero => intro n hn; omega
  | succ fuel ih =>
    intro n hn rest acc
    by_cases hnb : n < 10
    · rw [baseDigits, if_pos hnb]
      simp only [List.singleton_append, List.length_singleton]
      rw [decLoop_cons_digit _ _ (decDigitVal_digitChar n hnb)]
      norm_num
    · rw [baseDigits, if_neg hnb]
      have hdiv : n / 10 < fuel := by
        have h1 : n / 10 < n := Nat.div_lt_self (by omega) (by omega)
        omega
      rw [List.append_assoc, List.singleton_append, ih (n / 10) hdiv]
      rw [decLoop_cons_digit _ _ (decDigitVal_digitChar (n % 10) (by omega))]
      have hlen : (baseDigits 10 fuel (n / 10) ++ [digitChar (n % 10)]).length
          = (baseDigits 10 fuel (n / 10)).length + 1 := by simp
      rw [hlen]
      congr 1
      have hmod : 10 * (n / 10) + n % 10 = n := Nat.div_add_mod n 10
      set k := (baseDigits 10 fuel (n / 10)).length
      rw [pow_succ]
      ring_nf
      omega

theorem numTailBad_of_numStop (cs : List Char) (h : numStop cs = true) :
    numTailBad cs = false := by
  cases cs with
  | nil => rfl
  | cons c cs =>
    simp only [numStop, Bool.and_eq_true, bne_iff_ne] at h
    simp only [numTailBad, Bool.or_eq_false_iff, decide_eq_false_iff_not]
    exact ⟨⟨h.1.1.2, h.1.2⟩, h.2⟩

theorem digitChar_ne_zero (d : Nat) (h1 : 1 ≤ d) (h2 : d < 36) : digitChar d ≠ '0' := by
  intro he
  have := digitChar_toNat d h2
  rw [he] at this
  have hv : ('0' : Char).toNat = 48 := rfl
  rw [hv] at this
  split at this <;> omega

theorem parseJNumCore_cons (c : Char) (cs : List Char) :
    parseJNumCore (c :: cs)
      = match decDigitVal c with
        | none => none
        | some d =>
          if c = '0' then
            match cs with
            | c2 :: _ =>
              if (decDigitVal c2).isSome then none
              else if numTailBad cs then none else some (0, cs)
            | [] => some (0, [])
          else
            match decLoop cs d with
            | (v, r) => if numTailBad r then none else some (v, r) := rfl

theorem parseJNumCore_cons_digit (c : Char) (d : Nat) (hc : decDigitVal c = some d)
    (cs : List Char) :
    parseJNumCore (c :: cs)
      = if c = '0' then
          (match cs with
           | c2 :: _ =>
             if (decDigitVal c2).isSome then none
             else if numTailBad cs then none else some ((0 : Nat), cs)
           | [] => some ((0 : Nat), ([] : List Char)))
        else
          (match decLoop cs d with
           | (v, r) => if numTailBad r then none else some (v, r)) := by
  rw [parseJNumCore_cons, hc]

theorem natToDec_zero : natToDec 0 = ['0'] := rfl

theorem parseJNumCore_natToDec (n : Nat) (rest : List Char) (h : numStop rest = true) :
    parseJNumCore (natToDec n ++ rest) = some (n, rest) := by
  rcases Nat.eq_zero_or_pos n with hn0 | hnpos
  · subst hn0
    rw [natToDec_zero, List.singleton_append,
      parseJNumCore_cons_digit '0' 0 rfl rest, if_pos rfl]
    cases rest with
    | nil => rfl
    | cons c2 cs2 =>
      have hd : decDigitVal c2 = none := by
        simp only [numStop, Bool.and_eq_true, Option.isNone_iff_eq_none] at h
        exact h.1.1.1
      show (if (decDigitVal c2).isSome = true then none
            else if numTailBad (c2 :: cs2) = true then none
            else some ((0 : Nat), c2 :: cs2))
          = some ((0 : Nat), c2 :: cs2)
      rw [hd, numTailBad_of_numStop _ h]
      simp
  · obtain ⟨d, tail, heq, hd, hpos⟩ := baseDigits_head 10 (by omega) (by omega) (n + 1) n (by omega)
    have hne0 : digitChar d ≠ '0' := digitChar_ne_zero d (hpos hnpos) (by omega)
    have hloopfull : decLoop (natToDec n ++ rest) 0 = (n, rest) := by
      unfold natToDec
      rw [decLoop_baseDigits (n + 1) n (by omega) rest 0, Nat.zero_mul, Nat.zero_add,
        decLoop_stop rest h]
    have hloop : decLoop (tail ++ rest) d = (n, rest) := by
      have h2 : decLoop (natToDec n ++ rest) 0 = decLoop (tail ++ rest) (0 * 10 + d) := by
        show decLoop (baseDigits 10 (n + 1) n ++ rest) 0 = _
        rw [heq, List.cons_append, decLoop_cons_digit _ _ (decDigitVal_digitChar d (by omega))]
      rw [Nat.zero_mul, Nat.zero_add] at h2
      rw [← h2, hloopfull]
    have hdata : natToDec n ++ rest = digitChar d :: (tail ++ rest) := by
      unfold natToDec
      rw [heq, List.cons_append]
    rw [hdata, parseJNumCore_cons_digit _ d (decDigitVal_digitChar d (by omega)) _,
      if_neg hne0, hloop]
    show (if numTailBad rest = true then none else some (n, rest)) = some (n, rest)
    rw [numTailBad_of_numStop rest h]
    simp

theorem parseJNum_cons (c : Char) (cs : List Char) :
    parseJNum (c :: cs)
      = (if c = '-' then (parseJNumCore cs).map (fun p => (-(p.1 : Int), p.2))
         else (parseJNumCore (c :: cs)).map (fun p => ((p.1 : Int), p.2))) := rfl

theorem intToDec_head (i : Int) :
    ∃ c cs, intToDec i = c :: cs ∧ isJsonWs c = false ∧ c ≠ ']' ∧ c ≠ '\x7d' := by
  unfold intToDec
  by_cases hi : i < 0
  · exact ⟨'-', natToDec i.natAbs, by rw [if_pos hi], by decide, by decide, by decide⟩
  · obtain ⟨d, tail, heq, hd, _⟩ :=
      baseDigits_head 10 (by omega) (by omega) (i.toNat + 1) i.toNat (by omega)
    refine ⟨digitChar d, tail, by rw [if_neg hi]; exact heq, ?_, ?_, ?_⟩
    · have ht := digitChar_toNat d (by omega)
      simp only [isJsonWs, Bool.or_eq_false_iff, decide_eq_false_iff_not]
      refine ⟨⟨⟨?_, ?_⟩, ?_⟩, ?_⟩ <;> intro he <;> rw [he] at ht <;> revert ht <;>
        first
          | (rw [show (' ' : Char).toNat = 32 from rfl]; split <;> omega)
          | (rw [show ('\t' : Char).toNat = 9 from rfl]; split <;> omega)
          | (rw [show ('\n' : Char).toNat = 10 from rfl]; split <;> omega)
          | (rw [show ('\r' : Char).toNat = 13 from rfl]; split <;> omega)
    · intro he
      have ht := digitChar_toNat d (by omega)
      rw [he, show (']' : Char).toNat = 93 from rfl] at ht
      split at ht <;> omega
    · intro he
      have ht := digitChar_toNat d (by omega)
      rw [he, show ('\x7d' : Char).toNat = 125 from rfl] at ht
      split at ht <;> omega

theorem parseJNum_intToDec (i : Int) (rest : List Char) (h : numStop rest = true) :
    parseJNum (intToDec i ++ rest) = some (i, rest) := by
  by_cases hi : i < 0
  · have hdata : intToDec i ++ rest = '-' :: (natToDec i.natAbs ++ rest) := by
      unfold intToDec
      rw [if_pos hi, List.cons_append]
    rw [hdata, parseJNum_cons, if_pos rfl, parseJNumCore_natToDec i.natAbs rest h]
    show some (-((i.natAbs : Int)), rest) = some (i, rest)
    have hv : -((i.natAbs : Int)) = i := by omega
    rw [hv]
  · obtain ⟨d, tail, heq, hd, _⟩ :=
      baseDigits_head 10 (by omega) (by omega) (i.toNat + 1) i.toNat (by omega)
    have hdata : intToDec i ++ rest = digitChar d :: (tail ++ rest) := by
      unfold intToDec
      rw [if_neg hi]
      show natToDec i.toNat ++ rest = _
      unfold natToDec
      rw [heq, List.cons_append]
    have hminus : digitChar d ≠ '-' := (digitChar_not_sign d (by omega)).1
    rw [hdata, parseJNum_cons, if_neg hminus, ← List.cons_append, ← heq]
    show (parseJNumCore (natToDec i.toNat ++ rest)).map _ = _
    rw [parseJNumCore_natToDec i.toNat rest h]
    show some (((i.toNat : Int)), rest) = some (i, rest)
    have hv : ((i.toNat : Int)) = i := by omega
    rw [hv]

/-! ## JSON string escaping and reparsing lemmas -/

theorem hexDigitValAny_digitChar (d : Nat) (h : d < 16) :
    hexDigitValAny (digitChar d) = some d := by
  unfold hexDigitValAny
  rw [digitChar_toNat d (by omega)]
  by_cases hd : d < 10
  · rw [if_pos hd, if_pos (by omega)]
    simp only [Option.some.injEq]
    omega
  · rw [if_neg hd, if_neg (by omega), if_pos (by omega)]
    simp only [Option.some.injEq]
    omega

theorem parseJStr_eq (c : Char) (rest : List Char) :
    parseJStr (c :: rest)
      = (if c = '"' then some ([], rest)
         else if c = '\\' then
           match rest with
           | [] => none
           | e :: rest2 =>
             if e = '"' then (parseJStr rest2).map (fun p => ('"' :: p.1, p.2))
             else if e = '\\' then (parseJStr rest2).map (fun p => ('\\' :: p.1, p.2))
             else if e = '/' then (parseJStr rest2).map (fun p => ('/' :: p.1, p.2))
             else if e = 'b' then (parseJStr rest2).map (fun p => ('\x08' :: p.1, p.2))
             else if e = 'f' then (parseJStr rest2).map (fun p => ('\x0c' :: p.1, p.2))
             else if e = 'n' then (parseJStr rest2).map (fun p => ('\n' :: p.1, p.2))
             else if e = 'r' then (parseJStr rest2).map (fun p => ('\r' :: p.1, p.2))
             else if e = 't' then (parseJStr rest2).map (fun p => ('\t' :: p.1, p.2))
             else if e = 'u' then
               match rest2 with
               | h1 :: h2 :: h3 :: h4 :: rest4 =>
                 match hexDigitValAny h1, hexDigitValAny h2, hexDigitValAny h3,
                     hexDigitValAny h4 with
                 | some d1, some d2, some d3, some d4 =>
                   if 55296 ≤ ((d1 * 16 + d2) * 16 + d3) * 16 + d4
                       ∧ ((d1 * 16 + d2) * 16 + d3) * 16 + d4 < 57344 then none
                   else (parseJStr rest4).map
                     (fun p => (Char.ofNat (((d1 * 16 + d2) * 16 + d3) * 16 + d4) :: p.1, p.2))
                 | _, _, _, _ => none
               | _ => none
             else none
         else if c.toNat < 32 then none
         else (parseJStr rest).map (fun p => (c :: p.1, p.2))) := by
  rw [parseJStr.eq_def]

theorem parseJStr_u_digits (h1 h2 h3 h4 : Char) (d1 d2 d3 d4 : Nat)
    (e1 : hexDigitValAny h1 = some d1) (e2 : hexDigitValAny h2 = some d2)
    (e3 : hexDigitValAny h3 = some d3) (e4 : hexDigitValAny h4 = some d4)
    (rest4 : List Char) :
    parseJStr ('\\' :: 'u' :: h1 :: h2 :: h3 :: h4 :: rest4)
      = if 55296 ≤ ((d1 * 16 + d2) * 16 + d3) * 16 + d4
            ∧ ((d1 * 16 + d2) * 16 + d3) * 16 + d4 < 57344 then none
        else (parseJStr rest4).map
          (fun p => (Char.ofNat (((d1 * 16 + d2) * 16 + d3) * 16 + d4) :: p.1, p.2)) := by
  rw [parseJStr_eq, if_neg (by decide), if_pos rfl]
  show (match hexDigitValAny h1, hexDigitValAny h2, hexDigitValAny h3,
      hexDigitValAny h4 with
    | some d1, some d2, some d3, some d4 =>
      if 55296 ≤ ((d1 * 16 + d2) * 16 + d3) * 16 + d4
          ∧ ((d1 * 16 + d2) * 16 + d3) * 16 + d4 < 57344 then none
      else (parseJStr rest4).map
        (fun (p : List Char × List Char) =>
          (Char.ofNat (((d1 * 16 + d2) * 16 + d3) * 16 + d4) :: p.1, p.2))
    | _, _, _, _ => none) = _
  rw [e1, e2, e3, e4]

theorem parseJStr_cons_plain (c : Char) (rest : List Char)
    (h1 : c ≠ '"') (h2 : c ≠ '\\') (h3 : ¬ c.toNat < 32) :
    parseJStr (c :: rest) = (parseJStr rest).map (fun p => (c :: p.1, p.2)) := by
  rw [parseJStr_eq, if_neg h1, if_neg h2, if_neg h3]

theorem parseJStr_escape : ∀ (l rest : List Char),
    parseJStr (escapeJsonChars l ++ '"' :: rest) = some (l, rest)
  | [], rest => by
    show parseJStr ('"' :: rest) = some ([], rest)
    rw [parseJStr_eq, if_pos rfl]
  | c :: cs, rest => by
    have ih := parseJStr_escape cs rest
    show parseJStr ((escapeJsonChar c ++ escapeJsonChars cs) ++ '"' :: rest)
        = some (c :: cs, rest)
    rw [List.append_assoc]
    unfold escapeJsonChar
    by_cases h1 : c = '"'
    · rw [if_pos h1]
      show parseJStr ('\\' :: '"' :: (escapeJsonChars cs ++ '"' :: rest))
          = some (c :: cs, rest)
      rw [parseJStr_eq]
      show (parseJStr (escapeJsonChars cs ++ '"' :: rest)).map
          (fun p => ('"' :: p.1, p.2)) = some (c :: cs, rest)
      rw [ih]
      show some ('"' :: cs, rest) = some (c :: cs, rest)
      rw [h1]
    rw [if_neg h1]
    by_cases h2 : c = '\\'
    · rw [if_pos h2]
      show parseJStr ('\\' :: '\\' :: (escapeJsonChars cs ++ '"' :: rest))
          = some (c :: cs, rest)
      rw [parseJStr_eq]
      show (parseJStr (escapeJsonChars cs ++ '"' :: rest)).map
          (fun p => ('\\' :: p.1, p.2)) = some (c :: cs, rest)
      rw [ih]
      show some ('\\' :: cs, rest) = some (c :: cs, rest)
      rw [h2]
    rw [if_neg h2]
    by_cases h3 : c = '\x08'
    · rw [if_pos h3]
      show parseJStr ('\\' :: 'b' :: (escapeJsonChars cs ++ '"' :: rest))
          = some (c :: cs, rest)
      rw [parseJStr_eq]
      show (parseJStr (escapeJsonChars cs ++ '"' :: rest)).map
          (fun p => ('\x08' :: p.1, p.2)) = some (c :: cs, rest)
      rw [ih]
      show some ('\x08' :: cs, rest) = some (c :: cs, rest)
      rw [h3]
    rw [if_neg h3]
    by_cases h4 : c = '\t'
    · rw [if_pos h4]
      show parseJStr ('\\' :: 't' :: (escapeJsonChars cs ++ '"' :: rest))
          = some (c :: cs, rest)
      rw [parseJStr_eq]
      show (parseJStr (escapeJsonChars cs ++ '"' :: rest)).map
          (fun p => ('\t' :: p.1, p.2)) = some (c :: cs, rest)
      rw [ih]
      show some ('\t' :: cs, rest) = some (c :: cs, rest)
      rw [h4]
    rw [if_neg h4]
    by_cases h5 : c = '\n'
    · rw [if_pos h5]
      show parseJStr ('\\' :: 'n' :: (escapeJsonChars cs ++ '"' :: rest))
          = some (c :: cs, rest)
      rw [parseJStr_eq]
      show (parseJStr (escapeJsonChars cs ++ '"' :: rest)).map
          (fun p => ('\n' :: p.1, p.2)) = some (c :: cs, rest)
      rw [ih]
      show some ('\n' :: cs, rest) = some (c :: cs, rest)
      rw [h5]
    rw [if_neg h5]
    by_cases h6 : c = '\x0c'
    · rw [if_pos h6]
      show parseJStr ('\\' :: 'f' :: (escapeJsonChars cs ++ '"' :: rest))
          = some (c :: cs, rest)
      rw [parseJStr_eq]
      show (parseJStr (escapeJsonChars cs ++ '"' :: rest)).map
          (fun p => ('\x0c' :: p.1, p.2)) = some (c :: cs, rest)
      rw [ih]
      show some ('\x0c' :: cs, rest) = some (c :: cs, rest)
      rw [h6]
    rw [if_neg h6]
    by_cases h7 : c = '\r'
    · rw [if_pos h7]
      show parseJStr ('\\' :: 'r' :: (escapeJsonChars cs ++ '"' :: rest))
          = some (c :: cs, rest)
      rw [parseJStr_eq]
      show (parseJStr (escapeJsonChars cs ++ '"' :: rest)).map
          (fun p => ('\r' :: p.1, p.2)) = some (c :: cs, rest)
      rw [ih]
      show some ('\r' :: cs, rest) = some (c :: cs, rest)
      rw [h7]
    rw [if_neg h7]
    by_cases h8 : c.toNat < 32
    · rw [if_pos h8]
      show parseJStr ('\\' :: 'u' :: '0' :: '0' :: digitChar (c.toNat / 16)
          :: digitChar (c.toNat % 16) :: (escapeJsonChars cs ++ '"' :: rest))
          = some (c :: cs, rest)
      rw [parseJStr_u_digits '0' '0' _ _ 0 0 (c.toNat / 16) (c.toNat % 16) rfl rfl
        (hexDigitValAny_digitChar _ (by omega)) (hexDigitValAny_digitChar _ (by omega)) _]
      rw [if_neg (by omega), ih]
      show some (Char.ofNat (((0 * 16 + 0) * 16 + c.toNat / 16) * 16 + c.toNat % 16) :: cs,
        rest) = some (c :: cs, rest)
      have hv : ((0 * 16 + 0) * 16 + c.toNat / 16) * 16 + c.toNat % 16 = c.toNat := by omega
      rw [hv, charOfNat_toNat]
    · rw [if_neg h8]
      show parseJStr (c :: (escapeJsonChars cs ++ '"' :: rest)) = some (c :: cs, rest)
      rw [parseJStr_cons_plain c _ h1 h2 h8, ih]
      rfl

/-! ## Serializer equations and parser fuel bounds -/

theorem jsonSerialize_null : jsonSerialize .jNull = ['n', 'u', 'l', 'l'] := rfl

theorem jsonSerialize_true : jsonSerialize (.jBool true) = ['t', 'r', 'u', 'e'] := rfl

theorem jsonSerialize_false : jsonSerialize (.jBool false) = ['f', 'a', 'l', 's', 'e'] := rfl

theorem jsonSerialize_num (n : Int) : jsonSerialize (.jNum n) = intToDec n := rfl

theorem jsonSerialize_str (s : String) : jsonSerialize (.jStr s) = quoteJson s := rfl

theorem jsonSerialize_arr (xs : List JsValue) :
    jsonSerialize (.jArr xs) = '[' :: serElems xs ++ [']'] := rfl

theorem jsonSerialize_obj (fs : List (String × JsValue)) :
    jsonSerialize (.jObj fs) = '\x7b' :: serFields fs ++ ['\x7d'] := rfl

theorem serElems_nil : serElems [] = [] := rfl

theorem serElems_one (x : JsValue) : serElems [x] = jsonSerialize x := rfl

theorem serElems_cons2 (x y : JsValue) (xs : List JsValue) :
    serElems (x :: y :: xs) = jsonSerialize x ++ ',' :: serElems (y :: xs) := rfl

theorem serFields_nil : serFields [] = [] := rfl

theorem serFields_one (k : String) (v : JsValue) :
    serFields [(k, v)] = quoteJson k ++ ':' :: jsonSerialize v := rfl

theorem serFields_cons2 (k : String) (v : JsValue) (g : String × JsValue)
    (fs : List (String × JsValue)) :
    serFields ((k, v) :: g :: fs)
      = quoteJson k ++ ':' :: jsonSerialize v ++ ',' :: serFields (g :: fs) := rfl

theorem jFuel_null : jFuel .jNull = 1 := rfl

theorem jFuel_bool (b : Bool) : jFuel (.jBool b) = 1 := rfl

theorem jFuel_num (n : Int) : jFuel (.jNum n) = 1 := rfl

theorem jFuel_str (s : String) : jFuel (.jStr s) = 1 := rfl

theorem jFuel_arr (xs : List JsValue) : jFuel (.jArr xs) = 1 + elemsFuel xs := rfl

theorem jFuel_obj (fs : List (String × JsValue)) : jFuel (.jObj fs) = 1 + fieldsFuel fs := rfl

theorem elemsFuel_nil : elemsFuel [] = 1 := rfl

theorem elemsFuel_cons (x : JsValue) (xs : List JsValue) :
    elemsFuel (x :: xs) = 1 + jFuel x + elemsFuel xs := rfl

theorem fieldsFuel_nil : fieldsFuel [] = 1 := rfl

theorem fieldsFuel_cons (k : String) (v : JsValue) (fs : List (String × JsValue)) :
    fieldsFuel ((k, v) :: fs) = 1 + jFuel v + fieldsFuel fs := rfl

theorem jFuel_pos (v : JsValue) : 1 ≤ jFuel v := by
  cases v with
  | jNull => rw [jFuel_null]
  | jBool b => rw [jFuel_bool]
  | jNum n => rw [jFuel_num]
  | jStr s => rw [jFuel_str]
  | jArr xs => rw [jFuel_arr]; omega
  | jObj fs => rw [jFuel_obj]; omega

theorem jsonSerialize_head (v : JsValue) :
    ∃ c cs, jsonSerialize v = c :: cs ∧ isJsonWs c = false ∧ c ≠ ']' := by
  cases v with
  | jNull => exact ⟨'n', _, rfl, by decide, by decide⟩
  | jBool b =>
    cases b
    · exact ⟨'f', _, rfl, by decide, by decide⟩
    · exact ⟨'t', _, rfl, by decide, by decide⟩
  | jNum n =>
    obtain ⟨c, cs, he, hw, hb, _⟩ := intToDec_head n
    exact ⟨c, cs, he, hw, hb⟩
  | jStr s => exact ⟨'"', _, rfl, by decide, by decide⟩
  | jArr xs => exact ⟨'[', _, rfl, by decide, by decide⟩
  | jObj fs => exact ⟨'\x7b', _, rfl, by decide, by decide⟩

theorem skipJsonWs_cons (c : Char) (cs : List Char) (h : isJsonWs c = false) :
    skipJsonWs (c :: cs) = c :: cs := by
  simp [skipJsonWs, List.dropWhile_cons, h]

theorem elemsFuel_le :
    ∀ xs : List JsValue, (∀ x ∈ xs, jFuel x ≤ 2 * (jsonSerialize x).length + 1) →
      elemsFuel xs ≤ 2 * (serElems xs).length + 3
  | [], _ => by rw [elemsFuel_nil, serElems_nil]; omega
  | [x], h => by
    have hx := h x (by simp)
    rw [elemsFuel_cons, elemsFuel_nil, serElems_one]
    omega
  | x :: y :: xs, h => by
    have hx := h x (by simp)
    have ht := elemsFuel_le (y :: xs) (fun z hz => h z (by simp [hz]))
    rw [elemsFuel_cons, serElems_cons2]
    rw [List.length_append, List.length_cons]
    omega

theorem fieldsFuel_le :
    ∀ fs : List (String × JsValue),
      (∀ p ∈ fs, jFuel p.2 ≤ 2 * (jsonSerialize p.2).length + 1) →
      fieldsFuel fs ≤ 2 * (serFields fs).length + 3
  | [], _ => by rw [fieldsFuel_nil, serFields_nil]; omega
  | [(k, v)], h => by
    have hv : jFuel v ≤ 2 * (jsonSerialize v).length + 1 := h (k, v) (by simp)
    rw [fieldsFuel_cons, fieldsFuel_nil, serFields_one]
    rw [List.length_append, List.length_cons]
    omega
  | (k, v) :: g :: fs, h => by
    have hv : jFuel v ≤ 2 * (jsonSerialize v).length + 1 := h (k, v) (by simp)
    have ht := fieldsFuel_le (g :: fs) (fun z hz => h z (by simp [hz]))
    rw [fieldsFuel_cons, serFields_cons2]
    rw [List.length_append, List.length_cons, List.length_append, List.length_cons]
    omega

theorem jFuel_le : ∀ v : JsValue, jFuel v ≤ 2 * (jsonSerialize v).length + 1 := by
  suffices H : ∀ (N : Nat) (v : JsValue), sizeOf v ≤ N →
      jFuel v ≤ 2 * (jsonSerialize v).length + 1 from fun v => H (sizeOf v) v le_rfl
  intro N
  induction N with
  | zero =>
    intro v hv
    exfalso
    cases v <;> simp at hv
  | succ N ih =>
    intro v hv
    cases v with
    | jNull => rw [jFuel_null, jsonSerialize_null]; omega
    | jBool b =>
      cases b
      · rw [jFuel_bool, jsonSerialize_false]; omega
      · rw [jFuel_bool, jsonSerialize_true]; omega
    | jNum n =>
      obtain ⟨c, cs, he, _, _, _⟩ := intToDec_head n
      rw [jFuel_num, jsonSerialize_num, he]
      simp
    | jStr s => rw [jFuel_str, jsonSerialize_str]; omega
    | jArr xs =>
      have hxs : ∀ x ∈ xs, jFuel x ≤ 2 * (jsonSerialize x).length + 1 := by
        intro x hx
        apply ih
        have h1 : sizeOf x < sizeOf xs := List.sizeOf_lt_of_mem hx
        have h2 : sizeOf (JsValue.jArr xs) = 1 + sizeOf xs := by simp
        omega
      have hb := elemsFuel_le xs hxs
      rw [jFuel_arr, jsonSerialize_arr]
      simp only [List.length_cons, List.length_append, List.length_singleton]
      omega
    | jObj fs =>
      have hfs : ∀ p ∈ fs, jFuel p.2 ≤ 2 * (jsonSerialize p.2).length + 1 := by
        intro p hp
        apply ih
        have h1 : sizeOf p < sizeOf fs := List.sizeOf_lt_of_mem hp
        have h2 : sizeOf (JsValue.jObj fs) = 1 + sizeOf fs := by simp
        obtain ⟨k, v⟩ := p
        have h3 : sizeOf ((k, v) : String × JsValue) = 1 + sizeOf k + sizeOf v := by simp
        simp only []
        omega
      have hb := fieldsFuel_le fs hfs
      rw [jFuel_obj, jsonSerialize_obj]
      simp only [List.length_cons, List.length_append, List.length_singleton]
      omega

/-! ## Parser unfolding equations -/

theorem parseJVal_succ_cons (fuel : Nat) (c : Char) (rest : List Char)
    (h : isJsonWs c = false) :
    parseJVal (fuel + 1) (c :: rest)
      = (if c = '\x7b' then
          match skipJsonWs rest with
          | [] => none
          | c2 :: r2 =>
            if c2 = '\x7d' then some (JsValue.jObj [], r2)
            else (parseJObjRest fuel (c2 :: r2)).map
              (fun (p : List (String × JsValue) × List Char) => (JsValue.jObj p.1, p.2))
        else if c = '[' then
          match skipJsonWs rest with
          | [] => none
          | c2 :: r2 =>
            if c2 = ']' then some (JsValue.jArr [], r2)
            else (parseJArrRest fuel (c2 :: r2)).map
              (fun (p : List JsValue × List Char) => (JsValue.jArr p.1, p.2))
        else if c = '"' then
          (parseJStr rest).map
            (fun (p : List Char × List Char) => (JsValue.jStr ⟨p.1⟩, p.2))
        else if c = 't' then
          match rest with
          | 'r' :: 'u' :: 'e' :: r => some (JsValue.jBool true, r)
          | _ => none
        else if c = 'f' then
          match rest with
          | 'a' :: 'l' :: 's' :: 'e' :: r => some (JsValue.jBool false, r)
          | _ => none
        else if c = 'n' then
          match rest with
          | 'u' :: 'l' :: 'l' :: r => some (JsValue.jNull, r)
          | _ => none
        else (parseJNum (c :: rest)).map
          (fun (p : Int × List Char) => (JsValue.jNum p.1, p.2))) := by
  simp only [parseJVal]
  rw [skipJsonWs_cons _ _ h]

theorem parseJArrRest_succ (fuel : Nat) (cs : List Char) :
    parseJArrRest (fuel + 1) cs
      = (parseJVal fuel cs).bind (fun p =>
          match skipJsonWs p.2 with
          | ',' :: r2 => (parseJArrRest fuel r2).map (fun q => (p.1 :: q.1, q.2))
          | ']' :: r2 => some ([p.1], r2)
          | _ => none) := by
  simp only [parseJArrRest]

theorem parseJObjRest_succ (fuel : Nat) (cs : List Char) :
    parseJObjRest (fuel + 1) cs
      = (match skipJsonWs cs with
         | '"' :: r =>
           (parseJStr r).bind (fun kp =>
             match skipJsonWs kp.2 with
             | ':' :: r2 =>
               (parseJVal fuel r2).bind (fun vp =>
                 match skipJsonWs vp.2 with
                 | ',' :: r4 =>
                   (parseJObjRest fuel r4).map (fun q => ((⟨kp.1⟩, vp.1) :: q.1, q.2))
                 | '\x7d' :: r4 => some ([(⟨kp.1⟩, vp.1)], r4)
                 | _ => none)
             | _ => none)
         | _ => none) := by
  simp only [parseJObjRest]

/-! ## Serializer head-character and fuel positivity lemmas -/

theorem elemsFuel_pos (xs : List JsValue) : 1 ≤ elemsFuel xs := by
  cases xs with
  | nil => rw [elemsFuel_nil]
  | cons x xs => rw [elemsFuel_cons]; omega

theorem fieldsFuel_pos (fs : List (String × JsValue)) : 1 ≤ fieldsFuel fs := by
  cases fs with
  | nil => rw [fieldsFuel_nil]
  | cons p fs =>
    obtain ⟨k, v⟩ := p
    rw [fieldsFuel_cons]
    omega

theorem digitChar_lt10_ne (d : Nat) (h : d < 10) (c : Char)
    (hc : c.toNat < 48 ∨ 57 < c.toNat) : digitChar d ≠ c := by
  intro he
  have ht := digitChar_toNat d (by omega)
  rw [he, if_pos h] at ht
  omega

theorem intToDec_head_facts (i : Int) :
    ∃ c cs, intToDec i = c :: cs ∧ isJsonWs c = false ∧ c ≠ ']' ∧ c ≠ '\x7b' ∧ c ≠ '['
      ∧ c ≠ '"' ∧ c ≠ 't' ∧ c ≠ 'f' ∧ c ≠ 'n' := by
  by_cases hi : i < 0
  · refine ⟨'-', natToDec i.natAbs, ?_, by decide, by decide, by decide, by decide,
      by decide, by decide, by decide, by decide⟩
    unfold intToDec
    rw [if_pos hi]
  · obtain ⟨d, tail, heq, hd, _⟩ :=
      baseDigits_head 10 (by omega) (by omega) (i.toNat + 1) i.toNat (by omega)
    have hds : jsonSerialize (.jNum i) = digitChar d :: tail := by
      rw [jsonSerialize_num]
      unfold intToDec
      rw [if_neg hi]
      exact heq
    refine ⟨digitChar d, tail, by rw [jsonSerialize_num] at hds; exact hds, ?_,
      digitChar_lt10_ne d hd _ (by decide), digitChar_lt10_ne d hd _ (by decide),
      digitChar_lt10_ne d hd _ (by decide), digitChar_lt10_ne d hd _ (by decide),
      digitChar_lt10_ne d hd _ (by decide), digitChar_lt10_ne d hd _ (by decide),
      digitChar_lt10_ne d hd _ (by decide)⟩
    simp only [isJsonWs, Bool.or_eq_false_iff, decide_eq_false_iff_not]
    exact ⟨⟨⟨digitChar_lt10_ne d hd _ (by decide), digitChar_lt10_ne d hd _ (by decide)⟩,
      digitChar_lt10_ne d hd _ (by decide)⟩, digitChar_lt10_ne d hd _ (by decide)⟩

theorem serElems_head (x : JsValue) (xs : List JsValue) :
    ∃ c t, serElems (x :: xs) = c :: t ∧ isJsonWs c = false ∧ c ≠ ']' := by
  obtain ⟨c, cs, hc, hw, hb⟩ := jsonSerialize_head x
  cases xs with
  | nil => exact ⟨c, cs, by rw [serElems_one, hc], hw, hb⟩
  | cons y ys =>
    exact ⟨c, cs ++ ',' :: serElems (y :: ys),
      by rw [serElems_cons2, hc, List.cons_append], hw, hb⟩

/-! ## The parse-of-serialize roundtrip -/

theorem parse_serialize_all : ∀ fuel : Nat,
    (∀ (v : JsValue) (rest : List Char), jFuel v ≤ fuel → numStop rest = true →
      parseJVal fuel (jsonSerialize v ++ rest) = some (v, rest))
    ∧ (∀ (xs : List JsValue) (rest : List Char), xs ≠ [] → elemsFuel xs ≤ fuel →
      parseJArrRest fuel (serElems xs ++ ']' :: rest) = some (xs, rest))
    ∧ (∀ (fs : List (String × JsValue)) (rest : List Char), fs ≠ [] → fieldsFuel fs ≤ fuel →
      parseJObjRest fuel (serFields fs ++ '\x7d' :: rest) = some (fs, rest)) := by
  intro fuel
  induction fuel with
  | zero =>
    refine ⟨?_, ?_, ?_⟩
    · intro v rest hf _
      have := jFuel_pos v
      omega
    · intro xs rest _ hf
      have := elemsFuel_pos xs
      omega
    · intro fs rest _ hf
      have := fieldsFuel_pos fs
      omega
  | succ fuel ih =>
    obtain ⟨ihV, ihA, ihO⟩ := ih
    refine ⟨?_, ?_, ?_⟩
    · intro v rest hf hstop
      cases v with
      | jNull =>
        have hdata : jsonSerialize JsValue.jNull ++ rest
            = 'n' :: 'u' :: 'l' :: 'l' :: rest := rfl
        rw [hdata, parseJVal_succ_cons fuel 'n' _ (by decide),
          if_neg (by decide), if_neg (by decide), if_neg (by decide), if_neg (by decide),
          if_neg (by decide), if_pos rfl]
        rfl
      | jBool b =>
        cases b
        · have hdata : jsonSerialize (JsValue.jBool false) ++ rest
              = 'f' :: 'a' :: 'l' :: 's' :: 'e' :: rest := rfl
          rw [hdata, parseJVal_succ_cons fuel 'f' _ (by decide),
            if_neg (by decide), if_neg (by decide), if_neg (by decide), if_neg (by decide),
            if_pos rfl]
          rfl
        · have hdata : jsonSerialize (JsValue.jBool true) ++ rest
              = 't' :: 'r' :: 'u' :: 'e' :: rest := rfl
          rw [hdata, parseJVal_succ_cons fuel 't' _ (by decide),
            if_neg (by decide), if_neg (by decide), if_neg (by decide), if_pos rfl]
          rfl
      | jNum i =>
        obtain ⟨c, cs, hc, hw, _, h7b, hlb, hq, ht, hf2, hn⟩ := intToDec_head_facts i
        have hdata : jsonSerialize (JsValue.jNum i) ++ rest = c :: (cs ++ rest) := by
          rw [jsonSerialize_num, hc, List.cons_append]
        rw [hdata, parseJVal_succ_cons fuel c _ hw, if_neg h7b, if_neg hlb, if_neg hq,
          if_neg ht, if_neg hf2, if_neg hn, ← List.cons_append, ← hc]
        show (parseJNum (intToDec i ++ rest)).map
            (fun (p : Int × List Char) => (JsValue.jNum p.1, p.2))
          = some (JsValue.jNum i, rest)
        rw [parseJNum_intToDec i rest hstop]
        rfl
      | jStr s =>
        have hdata : jsonSerialize (JsValue.jStr s) ++ rest
            = '"' :: (escapeJsonChars s.data ++ '"' :: rest) := by
          rw [jsonSerialize_str]
          show quoteJson s ++ rest = _
          unfold quoteJson
          simp [List.append_assoc]
        rw [hdata, parseJVal_succ_cons fuel '"' _ (by decide), if_neg (by decide),
          if_neg (by decide), if_pos rfl, parseJStr_escape s.data rest]
        rfl
      | jArr xs =>
        cases xs with
        | nil =>
          have hdata : jsonSerialize (JsValue.jArr []) ++ rest = '[' :: ']' :: rest := rfl
          rw [hdata, parseJVal_succ_cons fuel '[' _ (by decide), if_neg (by decide),
            if_pos rfl, skipJsonWs_cons _ _ (by decide)]
          rfl
        | cons x xs2 =>
          obtain ⟨c, t, hct, hcw, hcne⟩ := serElems_head x xs2
          have hdata : jsonSerialize (JsValue.jArr (x :: xs2)) ++ rest
              = '[' :: (serElems (x :: xs2) ++ ']' :: rest) := by
            rw [jsonSerialize_arr]
            simp [List.append_assoc]
          have hse : serElems (x :: xs2) ++ ']' :: rest = c :: (t ++ ']' :: rest) := by
            rw [hct, List.cons_append]
          rw [hdata, parseJVal_succ_cons fuel '[' _ (by decide), if_neg (by decide),
            if_pos rfl, hse, skipJsonWs_cons _ _ hcw]
          show (if c = ']' then some (JsValue.jArr [], t ++ ']' :: rest)
                else (parseJArrRest fuel (c :: (t ++ ']' :: rest))).map
                  (fun (p : List JsValue × List Char) => (JsValue.jArr p.1, p.2)))
              = some (JsValue.jArr (x :: xs2), rest)
          rw [if_neg hcne, ← hse]
          have hfa : elemsFuel (x :: xs2) ≤ fuel := by
            rw [jFuel_arr] at hf
            omega
          rw [ihA (x :: xs2) rest (by simp) hfa]
          rfl
      | jObj fs =>
        cases fs with
        | nil =>
          have hdata : jsonSerialize (JsValue.jObj []) ++ rest
              = '\x7b' :: '\x7d' :: rest := rfl
          rw [hdata, parseJVal_succ_cons fuel '\x7b' _ (by decide), if_pos rfl,
            skipJsonWs_cons _ _ (by decide)]
          rfl
        | cons p fs2 =>
          obtain ⟨k, v⟩ := p
          have hsf : ∃ t, serFields ((k, v) :: fs2) = '"' :: t := by
            cases fs2 with
            | nil =>
              refine ⟨escapeJsonChars k.data ++ '"' :: ':' :: jsonSerialize v, ?_⟩
              rw [serFields_one]
              show quoteJson k ++ ':' :: jsonSerialize v = _
              unfold quoteJson
              simp [List.append_assoc]
            | cons g gs =>
              refine ⟨escapeJsonChars k.data
                ++ '"' :: ':' :: (jsonSerialize v ++ ',' :: serFields (g :: gs)), ?_⟩
              rw [serFields_cons2]
              show quoteJson k ++ ':' :: jsonSerialize v ++ ',' :: serFields (g :: gs) = _
              unfold quoteJson
              simp [List.append_assoc]
          obtain ⟨t, hst⟩ := hsf
          have hdata : jsonSerialize (JsValue.jObj ((k, v) :: fs2)) ++ rest
              = '\x7b' :: (serFields ((k, v) :: fs2) ++ '\x7d' :: rest) := by
            rw [jsonSerialize_obj]
            simp [List.append_assoc]
          have hse : serFields ((k, v) :: fs2) ++ '\x7d' :: rest
              = '"' :: (t ++ '\x7d' :: rest) := by
            rw [hst, List.cons_append]
          rw [hdata, parseJVal_succ_cons fuel '\x7b' _ (by decide), if_pos rfl, hse,
            skipJsonWs_cons _ _ (by decide)]
          show (if ('"' : Char) = '\x7d' then some (JsValue.jObj [], t ++ '\x7d' :: rest)
                else (parseJObjRest fuel ('"' :: (t ++ '\x7d' :: rest))).map
                  (fun (p : List (String × JsValue) × List Char) => (JsValue.jObj p.1, p.2)))
              = some (JsValue.jObj ((k, v) :: fs2), rest)
          rw [if_neg (by decide), ← hse]
          have hfo : fieldsFuel ((k, v) :: fs2) ≤ fuel := by
            rw [jFuel_obj] at hf
            omega
          rw [ihO ((k, v) :: fs2) rest (by simp) hfo]
          rfl
    · intro xs rest hne hf
      cases xs with
      | nil => exact absurd rfl hne
      | cons x xs2 =>
        cases xs2 with
        | nil =>
          have hdata : serElems [x] ++ ']' :: rest = jsonSerialize x ++ ']' :: rest := by
            rw [serElems_one]
          have hfx : jFuel x ≤ fuel := by
            rw [elemsFuel_cons, elemsFuel_nil] at hf
            omega
          rw [hdata, parseJArrRest_succ, ihV x (']' :: rest) hfx (by rfl)]
          show (match skipJsonWs (']' :: rest) with
            | ',' :: r2 => (parseJArrRest fuel r2).map (fun q => (x :: q.1, q.2))
            | ']' :: r2 => some ([x], r2)
            | _ => none) = some ([x], rest)
          rw [skipJsonWs_cons _ _ (by decide)]
          rfl
        | cons y ys =>
          have hdata : serElems (x :: y :: ys) ++ ']' :: rest
              = jsonSerialize x ++ (',' :: (serElems (y :: ys) ++ ']' :: rest)) := by
            rw [serElems_cons2]
            simp [List.append_assoc]
          have hfx : jFuel x ≤ fuel := by
            rw [elemsFuel_cons] at hf
            have := elemsFuel_pos (y :: ys)
            omega
          have hft : elemsFuel (y :: ys) ≤ fuel := by
            rw [elemsFuel_cons] at hf
            have := jFuel_pos x
            omega
          rw [hdata, parseJArrRest_succ, ihV x _ hfx (by rfl)]
          show (match skipJsonWs (',' :: (serElems (y :: ys) ++ ']' :: rest)) with
            | ',' :: r2 => (parseJArrRest fuel r2).map (fun q => (x :: q.1, q.2))
            | ']' :: r2 => some ([x], r2)
            | _ => none) = some (x :: y :: ys, rest)
          rw [skipJsonWs_cons _ _ (by decide)]
          show (parseJArrRest fuel (serElems (y :: ys) ++ ']' :: rest)).map
              (fun q => (x :: q.1, q.2)) = some (x :: y :: ys, rest)
          rw [ihA (y :: ys) rest (by simp) hft]
          rfl
    · intro fs rest hne hf
      cases fs with
      | nil => exact absurd rfl hne
      | cons p fs2 =>
        obtain ⟨k, v⟩ := p
        cases fs2 with
        | nil =>
          have hdata : serFields [(k, v)] ++ '\x7d' :: rest
              = '"' :: (escapeJsonChars k.data
                ++ '"' :: (':' :: (jsonSerialize v ++ '\x7d' :: rest))) := by
            rw [serFields_one]
            show (quoteJson k ++ ':' :: jsonSerialize v) ++ '\x7d' :: rest = _
            unfold quoteJson
            simp [List.append_assoc]
          have hfv : jFuel v ≤ fuel := by
            rw [fieldsFuel_cons, fieldsFuel_nil] at hf
            omega
          rw [hdata, parseJObjRest_succ, skipJsonWs_cons _ _ (by decide)]
          show (parseJStr (escapeJsonChars k.data
              ++ '"' :: (':' :: (jsonSerialize v ++ '\x7d' :: rest)))).bind
              (fun kp =>
                match skipJsonWs kp.2 with
                | ':' :: r2 =>
                  (parseJVal fuel r2).bind (fun vp =>
                    match skipJsonWs vp.2 with
                    | ',' :: r4 => (parseJObjRest fuel r4).map
                        (fun q => ((⟨kp.1⟩, vp.1) :: q.1, q.2))
                    | '\x7d' :: r4 => some ([(⟨kp.1⟩, vp.1)], r4)
                    | _ => none)
                | _ => none) = some ([(k, v)], rest)
          rw [parseJStr_escape k.data _]
          show (match skipJsonWs (':' :: (jsonSerialize v ++ '\x7d' :: rest)) with
            | ':' :: r2 =>
              (parseJVal fuel r2).bind (fun vp =>
                match skipJsonWs vp.2 with
                | ',' :: r4 => (parseJObjRest fuel r4).map
                    (fun q => ((⟨k.data⟩, vp.1) :: q.1, q.2))
                | '\x7d' :: r4 => some ([(⟨k.data⟩, vp.1)], r4)
                | _ => none)
            | _ => none) = some ([(k, v)], rest)
          rw [skipJsonWs_cons _ _ (by decide)]
          show (parseJVal fuel (jsonSerialize v ++ '\x7d' :: rest)).bind (fun vp =>
              match skipJsonWs vp.2 with
              | ',' :: r4 => (parseJObjRest fuel r4).map
                  (fun q => ((⟨k.data⟩, vp.1) :: q.1, q.2))
              | '\x7d' :: r4 => some ([(⟨k.data⟩, vp.1)], r4)
              | _ => none) = some ([(k, v)], rest)
          rw [ihV v _ hfv (by rfl)]
          show (match skipJsonWs ('\x7d' :: rest) with
            | ',' :: r4 => (parseJObjRest fuel r4).map (fun q => ((⟨k.data⟩, v) :: q.1, q.2))
            | '\x7d' :: r4 => some ([(⟨k.data⟩, v)], r4)
            | _ => none) = some ([(k, v)], rest)
          rw [skipJsonWs_cons _ _ (by decide)]
          rfl
        | cons g gs =>
          have hdata : serFields ((k, v) :: g :: gs) ++ '\x7d' :: rest
              = '"' :: (escapeJsonChars k.data
                ++ '"' :: (':' :: (jsonSerialize v
                  ++ ',' :: (serFields (g :: gs) ++ '\x7d' :: rest)))) := by
            rw [serFields_cons2]
            show (quoteJson k ++ ':' :: jsonSerialize v ++ ',' :: serFields (g :: gs))
                ++ '\x7d' :: rest = _
            unfold quoteJson
            simp [List.append_assoc]
          have hfv : jFuel v ≤ fuel := by
            rw [fieldsFuel_cons] at hf
            have := fieldsFuel_pos (g :: gs)
            omega
          have hft : fieldsFuel (g :: gs) ≤ fuel := by
            rw [fieldsFuel_cons] at hf
            have := jFuel_pos v
            omega
          rw [hdata, parseJObjRest_succ, skipJsonWs_cons _ _ (by decide)]
          show (parseJStr (escapeJsonChars k.data
              ++ '"' :: (':' :: (jsonSerialize v
                ++ ',' :: (serFields (g :: gs) ++ '\x7d' :: rest))))).bind
              (fun kp =>
                match skipJsonWs kp.2 with
                | ':' :: r2 =>
                  (parseJVal fuel r2).bind (fun vp =>
                    match skipJsonWs vp.2 with
                    | ',' :: r4 => (parseJObjRest fuel r4).map
                        (fun q => ((⟨kp.1⟩, vp.1) :: q.1, q.2))
                    | '\x7d' :: r4 => some ([(⟨kp.1⟩, vp.1)], r4)
                    | _ => none)
                | _ => none) = some ((k, v) :: g :: gs, rest)
          rw [parseJStr_escape k.data _]
          show (match skipJsonWs (':' :: (jsonSerialize v
              ++ ',' :: (serFields (g :: gs) ++ '\x7d' :: rest))) with
            | ':' :: r2 =>
              (parseJVal fuel r2).bind (fun vp =>
                match skipJsonWs vp.2 with
                | ',' :: r4 => (parseJObjRest fuel r4).map
                    (fun q => ((⟨k.data⟩, vp.1) :: q.1, q.2))
                | '\x7d' :: r4 => some ([(⟨k.data⟩, vp.1)], r4)
                | _ => none)
            | _ => none) = some ((k, v) :: g :: gs, rest)
          rw [skipJsonWs_cons _ _ (by decide)]
          show (parseJVal fuel (jsonSerialize v
              ++ ',' :: (serFields (g :: gs) ++ '\x7d' :: rest))).bind (fun vp =>
              match skipJsonWs vp.2 with
              | ',' :: r4 => (parseJObjRest fuel r4).map
                  (fun q => ((⟨k.data⟩, vp.1) :: q.1, q.2))
              | '\x7d' :: r4 => some ([(⟨k.data⟩, vp.1)], r4)
              | _ => none) = some ((k, v) :: g :: gs, rest)
          rw [ihV v _ hfv (by rfl)]
          show (match skipJsonWs (',' :: (serFields (g :: gs) ++ '\x7d' :: rest)) with
            | ',' :: r4 => (parseJObjRest fuel r4).map (fun q => ((⟨k.data⟩, v) :: q.1, q.2))
            | '\x7d' :: r4 => some ([(⟨k.data⟩, v)], r4)
            | _ => none) = some ((k, v) :: g :: gs, rest)
          rw [skipJsonWs_cons _ _ (by decide)]
          show (parseJObjRest fuel (serFields (g :: gs) ++ '\x7d' :: rest)).map
              (fun q => ((⟨k.data⟩, v) :: q.1, q.2)) = some ((k, v) :: g :: gs, rest)
          rw [ihO (g :: gs) rest (by simp) hft]
          rfl

/-! ## Claim C5 -/

theorem jsonParse_serialize (v : JsValue) : jsonParse (jsonSerialize v) = some v := by
  unfold jsonParse
  have hfb : jFuel v ≤ 2 * (jsonSerialize v).length + 2 := by
    have := jFuel_le v
    omega
  have h := (parse_serialize_all (2 * (jsonSerialize v).length + 2)).1 v [] hfb rfl
  rw [List.append_nil] at h
  rw [h]
  show (if skipJsonWs ([] : List Char) = [] then some v else none) = some v
  rfl

theorem parseIdTokenClaims_eq_of_split (tok hdr pay sg : String)
    (hs : jsSplit '.' tok = [hdr, pay, sg]) :
    parseIdTokenClaims tok
      = match jsonParse (utf8DecodeLenient (base64urlDecode pay.data)) with
        | some v => v
        | none => JsValue.jObj [] := by
  unfold parseIdTokenClaims
  rw [hs]

theorem parseIdTokenClaims_badlen (tok : String)
    (hlen : (jsSplit '.' tok).length ≠ 3) :
    parseIdTokenClaims tok = JsValue.jObj [] := by
  unfold parseIdTokenClaims
  rcases h : jsSplit '.' tok with _ | ⟨a, _ | ⟨b, _ | ⟨c, _ | ⟨d, l⟩⟩⟩⟩
  · rfl
  · rfl
  · rfl
  · rw [h] at hlen
    simp at hlen
  · rfl

/-- C5: the identity-token claim decoder is an exact inverse of encoding
for every claims object, and total on malformed input.  (1) For every
claims object - arbitrarily nested - and every three-segment token whose
middle segment is the base64url encoding of the UTF-8 bytes of the
object's JSON serialization, `parseIdTokenClaims` recovers exactly that
object.  (2) A token that does not split on `.` into exactly three
segments yields the empty claim set.  (3) A three-segment token whose
middle segment does not decode and parse as JSON yields the empty claim
set.  The decoder never throws: it is a total function by construction
(the `JSON.parse` failure, modelled as `none`, is the only JavaScript
exception on this path and is caught). -/
theorem claimC5_token_roundtrip :
    (∀ (tok hdr pay sg : String) (fs : List (String × JsValue)),
      jsSplit '.' tok = [hdr, pay, sg] →
      pay.data = base64urlEncode (utf8Encode (jsonSerialize (JsValue.jObj fs))) →
      parseIdTokenClaims tok = JsValue.jObj fs)
    ∧ (∀ tok : String, (jsSplit '.' tok).length ≠ 3 →
      parseIdTokenClaims tok = JsValue.jObj [])
    ∧ (∀ (tok hdr pay sg : String), jsSplit '.' tok = [hdr, pay, sg] →
      jsonParse (utf8DecodeLenient (base64urlDecode pay.data)) = none →
      parseIdTokenClaims tok = JsValue.jObj []) := by
  refine ⟨?_, ?_, ?_⟩
  · intro tok hdr pay sg fs hsp hpd
    rw [parseIdTokenClaims_eq_of_split tok hdr pay sg hsp, hpd,
      base64url_roundtrip _ (utf8Encode_lt256 _), utf8_roundtrip, jsonParse_serialize]
  · exact parseIdTokenClaims_badlen
  · intro tok hdr pay sg hsp hnone
    rw [parseIdTokenClaims_eq_of_split tok hdr pay sg hsp, hnone]

/-- Concrete instances of the three clauses of C5: the token with payload
`eyJhIjoxfQ` (the base64url encoding of the serialization of the object
with the single claim `a = 1`) decodes to that object; a one-segment
token and a three-segment token with undecodable payload decode to the
empty claim set. -/
theorem claimC5_witness :
    parseIdTokenClaims "h.eyJhIjoxfQ.s" = JsValue.jObj [("a", JsValue.jNum 1)]
    ∧ parseIdTokenClaims "nodots" = JsValue.jObj []
    ∧ parseIdTokenClaims "a.!!!.b" = JsValue.jObj [] := by
  obtain ⟨h1, h2, h3⟩ := claimC5_token_roundtrip
  exact ⟨h1 "h.eyJhIjoxfQ.s" "h" "eyJhIjoxfQ" "s" [("a", JsValue.jNum 1)] (by decide) rfl,
    h2 "nodots" (by decide),
    h3 "a.!!!.b" "a" "!!!" "b" (by decide) rfl⟩
